import Mathlib

/-!
Shallow embedding of `src/fuzzyset.ts` (class `FuzzySearch`), an in-memory
approximate-string-matching index, together with proofs about the claims of
its specification.

Modelling conventions:
* JS strings are modelled as `List Char`; `String.prototype.toLowerCase` is
  modelled on the Basic Latin / Latin-1 ranges that the library's character
  filter mentions (all strings handled in this development stay in that range).
* JS objects used as dictionaries (`exactSet`, `matchDict`, `items`, the gram
  counters and the `matches` accumulator) are modelled as association lists in
  property-insertion order.  Where the code observably relies on JS integer-key
  enumeration order (the `for (const matchIndex in matches)` loop), the model
  sorts the keys in ascending numeric order, which is what JS does for
  array-index-like keys.
* The only irrational numbers produced by the code are the vector norms
  `Math.sqrt(sumOfSquareGramCounts)`, which are immediately multiplied together
  and divided by.  The model therefore stores the exact radicand
  `sumOfSquareGramCounts : Nat` in place of the float `Math.sqrt(...)`, and a
  score value `num / (den * Real.sqrt rad)` is represented exactly by the
  integer triple in `ScoreVal`, with comparison operators that implement the
  real-number comparisons by cross-multiplied squares.  `1 - 0/0 = NaN` (the `_distance` of
  two empty strings) is represented by an explicit `isNaN` flag; as in JS, all
  `>=` comparisons against a NaN score are false.
* `Array.prototype.sort` with comparator `(a, b) => b[0] - a[0]` is a stable
  descending sort (ES2019); the model uses a stable insertion sort, which
  produces the unique stably-sorted-by-score order.
-/

namespace FuzzySearch

/-- Association-list lookup: the binding for a key, mirroring JS `o[k]` /
`k in o`. -/
def alookup {α β : Type} [DecidableEq α] : List (α × β) → α → Option β
  | [], _ => none
  | (k, v) :: t, k0 => if k0 = k then some v else alookup t k0

/-- Association-list update `o[k] = v`: replaces the binding in place if the
key exists, otherwise appends the new binding (JS property-insertion order). -/
def aset {α β : Type} [DecidableEq α] : List (α × β) → α → β → List (α × β)
  | [], k0, v0 => [(k0, v0)]
  | (k, v) :: t, k0, v0 => if k0 = k then (k, v0) :: t else (k, v) :: aset t k0 v0

/-- Append one element to the list stored under a key, creating the binding
when absent: models `matchDict[gram].push(p)` / `matchDict[gram] = [p]`. -/
def apush {α β : Type} [DecidableEq α] : List (α × List β) → α → β → List (α × List β)
  | [], k0, v0 => [(k0, [v0])]
  | (k, vs) :: t, k0, v0 =>
    if k0 = k then (k, vs ++ [v0]) :: t else (k, vs) :: apush t k0 v0

/-- Add `d` to the number stored under a key, creating the binding with value
`d` when absent: models `o[k] += d` / `o[k] = d` accumulation. -/
def abump {α : Type} [DecidableEq α] : List (α × Nat) → α → Nat → List (α × Nat)
  | [], k0, d => [(k0, d)]
  | (k, v) :: t, k0, d => if k0 = k then (k, v + d) :: t else (k, v) :: abump t k0 d

/-- JS `toLowerCase` on one UTF-16 unit, restricted to Basic Latin and the
Latin-1 supplement: `A`–`Z` and `À`–`Þ` (except `×`) move down by 32 code
points, everything else is fixed. -/
def toLowerChar (c : Char) : Char :=
  if 0x41 ≤ c.toNat ∧ c.toNat ≤ 0x5A then Char.ofNat (c.toNat + 32)
  else if 0xC0 ≤ c.toNat ∧ c.toNat ≤ 0xDE ∧ c.toNat ≠ 0xD7 then Char.ofNat (c.toNat + 32)
  else c

/-- The `_normalizeStr` method: `str.toLowerCase()`. -/
def normalizeStr (s : List Char) : List Char := s.map toLowerChar

/-- The character class `[a-zA-Z0-9À-ÿء-ي٠-٩, ]`
whose complement `_nonWordRe` matches. -/
def allowedChar (c : Char) : Bool :=
  decide ((0x61 ≤ c.toNat ∧ c.toNat ≤ 0x7A) ∨ (0x41 ≤ c.toNat ∧ c.toNat ≤ 0x5A) ∨
    (0x30 ≤ c.toNat ∧ c.toNat ≤ 0x39) ∨ (0xC0 ≤ c.toNat ∧ c.toNat ≤ 0xFF) ∨
    (0x621 ≤ c.toNat ∧ c.toNat ≤ 0x64A) ∨ (0x660 ≤ c.toNat ∧ c.toNat ≤ 0x669) ∨
    c.toNat = 0x2C ∨ c.toNat = 0x20)

/-- Effect of `value.replace(this._nonWordRe, '')` where
`_nonWordRe = /^[^ALLOWED]+$/g`: because the pattern is anchored at both `^`
and `$` (and the expression is not multiline), a match must cover the whole
string, so the replace erases the string exactly when it is non-empty and
every character is outside the allowed class, and otherwise leaves the string
untouched. -/
def stripNonWord (s : List Char) : List Char :=
  if s ≠ [] ∧ s.all (fun c => !allowedChar c) then [] else s

/-- The `_iterateGrams` method: lowercase, apply the (whole-string-anchored)
character filter, pad with `-` on both ends, right-pad to at least `gramSize`
characters, then slide a window of width `gramSize` by 1. -/
def iterateGrams (value : List Char) (gramSize : Nat) : List (List Char) :=
  let g := if gramSize = 0 then 2 else gramSize
  let simplified := '-' :: stripNonWord (normalizeStr value) ++ ['-']
  let padded := simplified ++ List.replicate (g - simplified.length) '-'
  (List.range (padded.length - g + 1)).map (fun i => (padded.drop i).take g)

/-- The `_gramCounter` method: tally of `_iterateGrams`, in first-occurrence
order. -/
def gramCounter (value : List Char) (gramSize : Nat) : List (List Char × Nat) :=
  (iterateGrams value gramSize).foldl (fun acc gr => abump acc gr 1) []

/-- Sum of squared gram frequencies (`sumOfSquareGramCounts`), the radicand of
the stored vector norm. -/
def sumSquares (gc : List (List Char × Nat)) : Nat :=
  (gc.map (fun p => p.2 * p.2)).sum

/-- Exact representation of a score produced by the pipeline.  A non-NaN value
`⟨p, d, r, false⟩` (with `d ≥ 1`, `r ≥ 1`) denotes the real number
`p / (d * Real.sqrt r)`.  Cosine scores are
`⟨dotProduct, 1, queryNormSq * candidateNormSq, false⟩` — the code's
`dot / (sqrt queryNormSq * sqrt candidateNormSq)` — and Levenshtein scores are
`⟨maxLen - distance, maxLen, 1, false⟩`, the code's `1 - distance / maxLen`.
`isNaN = true` is JS `NaN`, which arises only from `1 - 0/0` in `_distance`.
(Raw `Int`/`Nat` arithmetic is used so that every comparison evaluates by
kernel reduction.) -/
structure ScoreVal where
  num : Int
  den : Nat
  rad : Nat
  isNaN : Bool
deriving DecidableEq, Repr

/-- Decides `l ≥ r * Real.sqrt rad` for integers `l`, `r` by sign analysis and
squaring. -/
def intGeSqrt (l r : Int) (rad : Nat) : Bool :=
  if 0 ≤ r then decide (0 ≤ l ∧ r * r * rad ≤ l * l)
  else decide (0 ≤ l ∨ l * l ≤ r * r * rad)

/-- JS `score >= minMatchScore`: false whenever the score is NaN; otherwise
the exact real comparison `num / (den * sqrt rad) ≥ m`, cross-multiplied by
the positive `den * m.den`. -/
def scoreGe (s : ScoreVal) (m : ℚ) : Bool :=
  if s.isNaN then false else intGeSqrt (s.num * m.den) (m.num * s.den) s.rad

/-- Decides `a / Real.sqrt ra > b / Real.sqrt rb` for integers `a`, `b` by
sign analysis and squaring. -/
def intGtSqrt (a : Int) (ra : Nat) (b : Int) (rb : Nat) : Bool :=
  if 0 ≤ a then decide (b < 0 ∨ b * b * ra < a * a * rb)
  else decide (b < 0 ∧ a * a * rb < b * b * ra)

/-- JS strict comparison `valueOf a > valueOf b` on two scores; false when
either is NaN (the comparator then returns NaN, which `sort` treats as no
reordering). -/
def scoreGT (a b : ScoreVal) : Bool :=
  if a.isNaN || b.isNaN then false
  else intGtSqrt (a.num * b.den) a.rad (b.num * a.den) b.rad

/-- Insert an element into a descending-by-score list, after any element whose
score is not strictly smaller (this is what makes the sort stable). -/
def insertScoreDesc (x : ScoreVal × List Char) :
    List (ScoreVal × List Char) → List (ScoreVal × List Char)
  | [] => [x]
  | y :: ys => if scoreGT x.1 y.1 then x :: y :: ys else y :: insertScoreDesc x ys

/-- Stable descending sort by score: the order produced by
`results.sort((a, b) => b[0] - a[0])` under ES2019 stable sorting. -/
def sortScoresDesc (l : List (ScoreVal × List Char)) : List (ScoreVal × List Char) :=
  l.foldl (fun acc x => insertScoreDesc x acc) []

/-- Insert into an ascending-by-key list of `matches` bindings. -/
def insertKeyAsc (x : Nat × Nat) : List (Nat × Nat) → List (Nat × Nat)
  | [] => [x]
  | y :: ys => if x.1 < y.1 then x :: y :: ys else y :: insertKeyAsc x ys

/-- Ascending sort of the `matches` accumulator by entry index, modelling the
JS `for (const matchIndex in matches)` enumeration (array-index-like keys
enumerate in ascending numeric order). -/
def sortKeysAsc (l : List (Nat × Nat)) : List (Nat × Nat) :=
  l.foldl (fun acc x => insertKeyAsc x acc) []

/-- Inner loop (over `str1`, index `j`) of the rolling-row Levenshtein in the
`levenshtein` method.  Arguments: the current character `c2 = str2.charAt(i-1)`,
the remaining characters of `str1`, the old row values `current[j], ...` from
the previous iteration, the diagonal `prev` (old `current[j-1]`), and the new
`current[j-1]`; produces the new values `current[j], ...`. -/
def levRow (c2 : Char) : List Char → List Nat → Nat → Nat → List Nat
  | [], _, _, _ => []
  | c1 :: s1, old, diag, left =>
    let up := old.headD 0
    let v := if c1 = c2 then diag else min (min up left) diag + 1
    v :: levRow c2 s1 old.tail up v

/-- Outer loop (over `str2`, index `i` starting at 1) of the `levenshtein`
method: each iteration replaces `current` with a new row whose 0-th entry
is `i`. -/
def levRows (s1 : List Char) : List Char → Nat → List Nat → List Nat
  | [], _, row => row
  | c2 :: s2, i, row => levRows s1 s2 (i + 1) (i :: levRow c2 s1 row.tail (row.headD 0) i)

/-- The `levenshtein` method: initialise `current = [0, 1, ..., str1.length]`,
run the rolling rows over `str2`, and return `current[str1.length]`. -/
def levenshtein (s1 s2 : List Char) : Nat :=
  (levRows s1 s2 1 (List.range (s1.length + 1))).getD s1.length 0

/-- The `_distance` method applied to two actual strings (its `null` guards
are unreachable from the pipeline, which always passes strings).  JS computes
`1 - distance / longerLength` in floating point; for two empty strings that is
`1 - 0/0 = NaN`, recorded by the `isNaN` flag. -/
def distance (s1 s2 : List Char) : ScoreVal :=
  let d := levenshtein s1 s2
  if s1.length = 0 ∧ s2.length = 0 then ⟨0, 1, 1, true⟩
  else if s2.length < s1.length then ⟨(s1.length : Int) - d, s1.length, 1, false⟩
  else ⟨(s2.length : Int) - d, s2.length, 1, false⟩

/-- The mutable state of a `FuzzySearch` object.  `items` maps a gram size to
its record list; each record stores `sumOfSquareGramCounts` (the radicand of
the stored `Math.sqrt` vector norm, see the file comment) and the normalized
string. -/
structure State where
  gramSizeLower : Nat
  gramSizeUpper : Nat
  useLevenshtein : Bool
  exactSet : List (List Char × List Char)
  matchDict : List (List Char × List (Nat × Nat))
  items : List (Nat × List (Nat × List Char))
deriving DecidableEq, Repr

/-- `this.items[gramSize] || []` (and `this.items[gramSize]` at the call sites
that only ever use gram sizes in the configured range). -/
def lookupItems (st : State) (g : Nat) : List (Nat × List Char) :=
  (alookup st.items g).getD []

/-- The `_add` method: append the new record for this gram size and push a
posting `(index, gramCount)` for each gram of the normalized value, then
store `normalized -> original` in `exactSet`. -/
def addAtSize (st : State) (value : List Char) (gramSize : Nat) : State :=
  let normalizedValue := normalizeStr value
  let items := lookupItems st gramSize
  let index := items.length
  let gramCounts := gramCounter normalizedValue gramSize
  let md := gramCounts.foldl (fun md p => apush md p.1 (index, p.2)) st.matchDict
  { st with
    matchDict := md
    items := aset st.items gramSize (items ++ [(sumSquares gramCounts, normalizedValue)])
    exactSet := aset st.exactSet normalizedValue value }

/-- The list `[gramSizeLower, ..., gramSizeUpper]` iterated by the constructor,
`add` and (reversed) by `_get`. -/
def gramSizeRange (lower upper : Nat) : List Nat :=
  List.range' lower (upper + 1 - lower)

/-- The `add` method: a no-op when the normalized value is already present,
otherwise `_add` at every configured gram size. -/
def add (st : State) (value : List Char) : State :=
  if (alookup st.exactSet (normalizeStr value)).isSome then st
  else (gramSizeRange st.gramSizeLower st.gramSizeUpper).foldl
    (fun s g => addAtSize s value g) st

/-- The freshly-constructed state before any entry is inserted. -/
def initState (lower upper : Nat) (useLev : Bool) : State :=
  { gramSizeLower := lower, gramSizeUpper := upper, useLevenshtein := useLev,
    exactSet := [], matchDict := [],
    items := (gramSizeRange lower upper).map (fun g => (g, [])) }

/-- The constructor `new FuzzySearch(arr, useLevenshtein, lower, upper)`:
initialise the per-size record lists, then `add` every initial entry in order.
Since `get` does not mutate, every reachable index state has this form. -/
def buildState (lower upper : Nat) (useLev : Bool) (arr : List (List Char)) : State :=
  arr.foldl add (initState lower upper useLev)

/-- The `matches` accumulation of `__get`: for every query gram, add
`queryCount * postingCount` to each posted entry index. -/
def accumMatches (st : State) (gramCounts : List (List Char × Nat)) : List (Nat × Nat) :=
  gramCounts.foldl (fun acc p =>
    match alookup st.matchDict p.1 with
    | none => acc
    | some ps => ps.foldl (fun acc q => abump acc q.1 (p.2 * q.2)) acc) []

/-- The `__get` method (query at one gram size): `none` models the `return
null` taken when no entry received any dot-product contribution; otherwise the
cosine scores are computed, sorted descending, optionally replaced by
Levenshtein scores of the top 50, and filtered by `minMatchScore`, mapping
normalized words back through `exactSet`. -/
def getAtSize (st : State) (value : List Char) (gramSize : Nat) (minMatchScore : ℚ) :
    Option (List (ScoreVal × List Char)) :=
  let normalizedValue := normalizeStr value
  let gramCounts := gramCounter normalizedValue gramSize
  let items := lookupItems st gramSize
  let matchesAcc := accumMatches st gramCounts
  if matchesAcc = [] then none
  else
    let sumOfSquareGramCounts := sumSquares gramCounts
    let results := (sortKeysAsc matchesAcc).map (fun m =>
      let it := items.getD m.1 (0, [])
      ((⟨(m.2 : Int), 1, sumOfSquareGramCounts * it.1, false⟩ : ScoreVal), it.2))
    let results := sortScoresDesc results
    let results := if st.useLevenshtein then
        sortScoresDesc ((results.take 50).map (fun r => (distance r.2 normalizedValue, r.2)))
      else results
    some ((results.filter (fun r => scoreGe r.1 minMatchScore)).map
      (fun r => (r.1, (alookup st.exactSet r.2).getD [])))

/-- The loop of the `_get` method: gram sizes are tried in the given order and
a result list is returned as soon as it is non-empty (`results &&
results.length > 0`); otherwise the fallback continues. -/
def getLoop (st : State) (value : List Char) (minMatchScore : ℚ) :
    List Nat → Option (List (ScoreVal × List Char))
  | [] => none
  | g :: gs =>
    match getAtSize st value g minMatchScore with
    | some r => if 0 < r.length then some r else getLoop st value minMatchScore gs
    | none => getLoop st value minMatchScore gs

/-- The `_get` method: try gram sizes from `gramSizeUpper` down to
`gramSizeLower`; `none` models the final `return null`. -/
def getInner (st : State) (value : List Char) (minMatchScore : ℚ) :
    Option (List (ScoreVal × List Char)) :=
  getLoop st value minMatchScore ((gramSizeRange st.gramSizeLower st.gramSizeUpper).reverse)

/-- The public `get` method: the result list when `_get` found one, otherwise
the supplied default value (`Sum.inr`) or JS `null` (`none`). -/
def get {α : Type} (st : State) (value : List Char) (defaultValue : Option α)
    (minMatchScore : ℚ) : Option (List (ScoreVal × List Char) ⊕ α) :=
  match getInner st value minMatchScore with
  | some r => some (Sum.inl r)
  | none => defaultValue.map Sum.inr

/-- The `length` method: the number of own properties of `exactSet`. -/
def length (st : State) : Nat := st.exactSet.length

/-- The `isEmpty` method. -/
def isEmpty (st : State) : Bool := st.exactSet.isEmpty

/-- The `values` method. -/
def values (st : State) : List (List Char) := st.exactSet.map (·.2)

/-! ### Reference definitions used to state the claims -/

/-- Boundary-anchored character filter as the specification describes it:
remove the maximal run of disallowed characters at the start of the string and
the maximal run at the end, preserving the interior.  (Used to compare the
spec's description against the code's `stripNonWord`.) -/
def boundaryStripSpec (s : List Char) : List Char :=
  ((s.dropWhile (fun c => !allowedChar c)).reverse.dropWhile (fun c => !allowedChar c)).reverse

/-- Sliding-window gram extraction with boundary padding but with no character
filtering at all: pad `w` with `-` on both ends, right-pad to the gram size,
and take all windows.  `iterateGrams` coincides with this applied to the
lowercased input whenever at least one character is allowed. -/
def gramsNoFilter (w : List Char) (gramSize : Nat) : List (List Char) :=
  let g := if gramSize = 0 then 2 else gramSize
  let simplified := '-' :: w ++ ['-']
  let padded := simplified ++ List.replicate (g - simplified.length) '-'
  (List.range (padded.length - g + 1)).map (fun i => (padded.drop i).take g)

/-- Number of results carried by a `_get`-style outcome (`null` carries 0). -/
def resCount : Option (List (ScoreVal × List Char)) → Nat
  | none => 0
  | some r => r.length

/-- One step of the reference Levenshtein recurrence: given `x`, the distances
`levXs = levRef xs` from the tail, compute `fun ys => levRef (x :: xs) ys` by
structural recursion on `ys`. -/
def levRefCons (x : Char) (levXs : List Char → Nat) : List Char → Nat
  | [] => levXs [] + 1
  | y :: ys =>
    if x = y then levXs ys
    else min (min (levRefCons x levXs ys) (levXs (y :: ys))) (levXs ys) + 1

/-- Reference Levenshtein distance, by the textbook recurrence
`lev [] ys = |ys|`, `lev xs [] = |xs|`,
`lev (x::xs) (y::ys) = if x = y then lev xs ys else
  1 + min (lev (x::xs) ys) (min (lev xs (y::ys)) (lev xs ys))`
(the minimum number of single-character insertions, deletions and
substitutions). -/
def levRef : List Char → List Char → Nat
  | [], ys => ys.length
  | x :: xs, ys => levRefCons x (levRef xs) ys

/-! ### Association-list helper lemmas -/

theorem alookup_aset_self {α β : Type} [DecidableEq α] (m : List (α × β)) (k : α) (v : β) :
    alookup (aset m k v) k = some v := by
  induction m with
  | nil => simp [aset, alookup]
  | cons p t ih =>
    obtain ⟨pk, pv⟩ := p
    by_cases h : k = pk
    · simp [aset, alookup, h]
    · simp [aset, alookup, h, ih]

theorem alookup_aset_other {α β : Type} [DecidableEq α] (m : List (α × β)) {k k2 : α}
    (v : β) (h : k2 ≠ k) : alookup (aset m k v) k2 = alookup m k2 := by
  induction m with
  | nil => simp [aset, alookup, h]
  | cons p t ih =>
    by_cases hk : k = p.1
    · subst hk
      simp only [aset, if_pos rfl, alookup, if_neg h]
    · simp only [aset, if_neg hk, alookup, ih]

theorem length_aset_of_none {α β : Type} [DecidableEq α] (m : List (α × β)) {k : α} (v : β)
    (h : alookup m k = none) : (aset m k v).length = m.length + 1 := by
  induction m with
  | nil => rfl
  | cons p t ih =>
    by_cases hk : k = p.1
    · simp [alookup, if_pos hk] at h
    · simp only [alookup, if_neg hk] at h
      simp [aset, if_neg hk, ih h]

theorem length_aset_of_some {α β : Type} [DecidableEq α] (m : List (α × β)) {k : α} (v w : β)
    (h : alookup m k = some w) : (aset m k v).length = m.length := by
  induction m with
  | nil => simp [alookup] at h
  | cons p t ih =>
    by_cases hk : k = p.1
    · simp [aset, if_pos hk]
    · simp only [alookup, if_neg hk] at h
      simp [aset, if_neg hk, ih h]

theorem alookup_apush_self {α β : Type} [DecidableEq α] (m : List (α × List β)) (k : α) (v : β) :
    alookup (apush m k v) k = some ((alookup m k).getD [] ++ [v]) := by
  induction m with
  | nil => simp [apush, alookup]
  | cons p t ih =>
    obtain ⟨pk, pv⟩ := p
    by_cases h : k = pk
    · simp [apush, alookup, h]
    · simp [apush, alookup, h, ih]

theorem alookup_apush_other {α β : Type} [DecidableEq α] (m : List (α × List β)) {k k2 : α}
    (v : β) (h : k2 ≠ k) : alookup (apush m k v) k2 = alookup m k2 := by
  induction m with
  | nil => simp [apush, alookup, h]
  | cons p t ih =>
    by_cases hk : k = p.1
    · subst hk
      simp only [apush, if_pos rfl, alookup, if_neg h]
    · simp only [apush, if_neg hk, alookup, ih]

/-! ### Claim C3: the boundary character filter -/

/-- Claim C3, counterexample: on the raw string `"!a"` the claim predicts that
the leading `!` run is removed before gram extraction; the code's
whole-string-anchored replace leaves `"!a"` unchanged, and the extracted grams
still contain the `!`. -/
theorem c3_counterexample :
    stripNonWord (normalizeStr ['!', 'a']) = ['!', 'a'] ∧
    boundaryStripSpec (normalizeStr ['!', 'a']) = ['a'] ∧
    stripNonWord (normalizeStr ['!', 'a']) ≠ boundaryStripSpec (normalizeStr ['!', 'a']) ∧
    iterateGrams ['!', 'a'] 2 = [['-', '!'], ['!', 'a'], ['a', '-']] := by
  decide

/-- Claim C3, amended: because `_nonWordRe` is anchored at both `^` and `$`,
the pre-gram normalization lowercases the string and then removes characters
only in the degenerate case that every character is disallowed (the whole
string is erased); whenever at least one character of the lowercased string is
allowed, nothing at all is removed — leading and trailing disallowed runs are
preserved just like interior ones — and gram extraction runs on the full
lowercased string. -/
theorem c3_theorem (v : List Char) (g : Nat) :
    ((∃ c ∈ normalizeStr v, allowedChar c = true) →
      iterateGrams v g = gramsNoFilter (normalizeStr v) g) ∧
    ((∀ c ∈ normalizeStr v, allowedChar c = false) →
      iterateGrams v g = gramsNoFilter [] g) := by
  constructor
  · rintro ⟨c, hc, hca⟩
    have hns : stripNonWord (normalizeStr v) = normalizeStr v := by
      unfold stripNonWord
      rw [if_neg]
      rintro ⟨-, hall⟩
      rw [List.all_eq_true] at hall
      have := hall c hc
      simp [hca] at this
    simp only [iterateGrams, gramsNoFilter, hns]
  · intro h
    have hns : stripNonWord (normalizeStr v) = [] := by
      unfold stripNonWord
      by_cases hv : normalizeStr v = []
      · rw [if_neg (by rintro ⟨hne, -⟩; exact hne hv), hv]
      · rw [if_pos ⟨hv, List.all_eq_true.2 (fun c hc => by simp [h c hc])⟩]
    simp only [iterateGrams, gramsNoFilter, hns]

/-- Claim C3, amended, witness at the concrete raw string `"!a"`. -/
theorem c3_theorem_witness :
    iterateGrams ['!', 'a'] 2 = gramsNoFilter (normalizeStr ['!', 'a']) 2 :=
  ( c3_theorem ['!', 'a'] 2).1 ⟨'a', by decide, by decide⟩

/-! ### Claim C10: querying is case-insensitive -/

theorem charOfNat_toNat {n : Nat} (h : n < 0xd800) : (Char.ofNat n).toNat = n := by
  unfold Char.ofNat
  split
  · rfl
  · rename_i hc
    exact absurd (Or.inl h) hc

theorem toLowerChar_idem (c : Char) : toLowerChar (toLowerChar c) = toLowerChar c := by
  by_cases h1 : 0x41 ≤ c.toNat ∧ c.toNat ≤ 0x5A
  · have e1 : toLowerChar c = Char.ofNat (c.toNat + 32) := by
      unfold toLowerChar
      rw [if_pos h1]
    have hv : (Char.ofNat (c.toNat + 32)).toNat = c.toNat + 32 :=
      charOfNat_toNat (by omega)
    rw [e1]
    unfold toLowerChar
    rw [if_neg (by rw [hv]; omega), if_neg (by rw [hv]; omega)]
  · by_cases h2 : 0xC0 ≤ c.toNat ∧ c.toNat ≤ 0xDE ∧ c.toNat ≠ 0xD7
    · have e1 : toLowerChar c = Char.ofNat (c.toNat + 32) := by
        unfold toLowerChar
        rw [if_neg h1, if_pos h2]
      have hv : (Char.ofNat (c.toNat + 32)).toNat = c.toNat + 32 :=
        charOfNat_toNat (by omega)
      rw [e1]
      unfold toLowerChar
      rw [if_neg (by rw [hv]; omega), if_neg (by rw [hv]; omega)]
    · have e1 : toLowerChar c = c := by
        unfold toLowerChar
        rw [if_neg h1, if_neg h2]
      rw [e1, e1]

theorem normalizeStr_idem (s : List Char) :
    normalizeStr (normalizeStr s) = normalizeStr s := by
  unfold normalizeStr
  rw [List.map_map]
  exact List.map_congr_left (fun c _ => toLowerChar_idem c)

theorem getAtSize_congr (st : State) {v1 v2 : List Char}
    (h : normalizeStr v1 = normalizeStr v2) (g : Nat) (m : ℚ) :
    getAtSize st v1 g m = getAtSize st v2 g m := by
  unfold getAtSize
  rw [h]

theorem getLoop_congr (st : State) {v1 v2 : List Char}
    (h : normalizeStr v1 = normalizeStr v2) (m : ℚ) (gs : List Nat) :
    getLoop st v1 m gs = getLoop st v2 m gs := by
  induction gs with
  | nil => rfl
  | cons g gs ih =>
    unfold getLoop
    rw [getAtSize_congr st h g m, ih]

/-- Claim C10: `get` is case-insensitive — for every index state, query,
default value and threshold, querying the raw string and querying its
lowercased form give exactly the same outcome, because `__get` consults the
query only through `_normalizeStr` (lowercasing), which is idempotent. -/
theorem c10_theorem (st : State) (q : List Char) {α : Type} (dflt : Option α) (m : ℚ) :
    get st q dflt m = get st (q.map toLowerChar) dflt m := by
  have h : normalizeStr (q.map toLowerChar) = normalizeStr q := normalizeStr_idem q
  unfold get getInner
  rw [getLoop_congr st h.symm]

/-! ### Claim C9: no-match outcomes and the empty index -/

theorem accumMatches_of_matchDict_nil (st : State) (h : st.matchDict = [])
    (gc : List (List Char × Nat)) : accumMatches st gc = [] := by
  have aux : ∀ (l : List (List Char × Nat)) (acc : List (Nat × Nat)),
      l.foldl (fun acc p =>
        match alookup st.matchDict p.1 with
        | none => acc
        | some ps => ps.foldl (fun acc q => abump acc q.1 (p.2 * q.2)) acc) acc = acc := by
    intro l
    induction l with
    | nil => intro acc; rfl
    | cons p t ih =>
      intro acc
      have : alookup st.matchDict p.1 = none := by rw [h]; rfl
      simp only [List.foldl_cons, this]
      exact ih acc
  exact aux gc []

theorem getAtSize_of_matchDict_nil (st : State) (h : st.matchDict = [])
    (v : List Char) (g : Nat) (m : ℚ) : getAtSize st v g m = none := by
  unfold getAtSize
  simp only [accumMatches_of_matchDict_nil st h, if_true]

theorem getLoop_of_matchDict_nil (st : State) (h : st.matchDict = [])
    (v : List Char) (m : ℚ) (gs : List Nat) : getLoop st v m gs = none := by
  induction gs with
  | nil => rfl
  | cons g gs ih =>
    unfold getLoop
    rw [getAtSize_of_matchDict_nil st h v g m, ih]

/-- Claim C9: on an index built with zero entries, `_get` finds no candidate
at any gram size, so `get` returns the supplied default value when one was
given and `null` otherwise; `isEmpty()` is `true`, `length()` is `0`, and the
query is an ordinary total computation (no error path). -/
theorem c9_theorem (lower upper : Nat) (useLev : Bool) {α : Type} (dflt : Option α)
    (q : List Char) (m : ℚ) (st : State) (hst : st = buildState lower upper useLev []) :
    getInner st q m = none ∧ get st q dflt m = dflt.map Sum.inr ∧
    isEmpty st = true ∧ FuzzySearch.length st = 0 := by
  subst hst
  have hmd : (buildState lower upper useLev []).matchDict = [] := rfl
  have hnone : getInner (buildState lower upper useLev []) q m = none :=
    getLoop_of_matchDict_nil _ hmd q m _
  refine ⟨hnone, ?_, rfl, rfl⟩
  unfold get
  rw [hnone]

/-- Claim C9, witness: the concrete empty index with a supplied default. -/
theorem c9_theorem_witness :
    getInner (buildState 2 3 true []) ['a', 'b'] (mkRat 33 100) = none ∧
    get (buildState 2 3 true []) ['a', 'b'] (some 7) (mkRat 33 100) = some (Sum.inr 7) ∧
    isEmpty (buildState 2 3 true []) = true ∧
    FuzzySearch.length (buildState 2 3 true []) = 0 :=
  c9_theorem 2 3 true (some 7) ['a', 'b'] (mkRat 33 100) _ rfl

/-! ### Claim C4: idempotent, first-insertion-wins insertion -/

theorem add_of_isSome (st : State) (v : List Char)
    (h : (alookup st.exactSet (normalizeStr v)).isSome = true) : add st v = st := by
  unfold add
  rw [if_pos h]

theorem add_of_range_nil (st : State) (v : List Char)
    (h : gramSizeRange st.gramSizeLower st.gramSizeUpper = []) : add st v = st := by
  unfold add
  split
  · rfl
  · rw [h]
    rfl

theorem foldAdd_lookup_self (v : List Char) : ∀ (gs : List Nat) (st : State), gs ≠ [] →
    alookup ((gs.foldl (fun s g => addAtSize s v g) st).exactSet) (normalizeStr v) = some v := by
  intro gs
  induction gs with
  | nil => intro st h; exact absurd rfl h
  | cons g t ih =>
    intro st h
    simp only [List.foldl_cons]
    cases t with
    | nil =>
      simp only [List.foldl_nil]
      exact alookup_aset_self st.exactSet (normalizeStr v) v
    | cons g2 t2 => exact ih _ (by simp)

theorem add_lookup_self (st : State) (v : List Char)
    (h0 : alookup st.exactSet (normalizeStr v) = none)
    (hgs : gramSizeRange st.gramSizeLower st.gramSizeUpper ≠ []) :
    alookup (add st v).exactSet (normalizeStr v) = some v := by
  unfold add
  rw [if_neg (by rw [h0]; simp)]
  exact foldAdd_lookup_self v _ st hgs

/-- Claim C4: insertion is idempotent and first-insertion-wins.  Adding the
same string twice produces the identical state (hence the same `length()` and
the same `get` results for every query); adding any second raw string with the
same normalized form is a no-op; and when the normalized form was fresh (and
at least one gram size is configured) the catalog maps it to the raw string
that was inserted first. -/
theorem c4_theorem (st : State) (a b : List Char) (hab : normalizeStr a = normalizeStr b) :
    add (add st a) a = add st a ∧ add (add st a) b = add st a ∧
    (alookup st.exactSet (normalizeStr a) = none →
      st.gramSizeLower ≤ st.gramSizeUpper →
      alookup (add st a).exactSet (normalizeStr a) = some a) := by
  by_cases h0 : (alookup st.exactSet (normalizeStr a)).isSome = true
  · have e1 : add st a = st := add_of_isSome st a h0
    have h0b : (alookup st.exactSet (normalizeStr b)).isSome = true := by
      rw [← hab]; exact h0
    refine ⟨?_, ?_, ?_⟩
    · rw [e1]; exact e1
    · rw [e1]; exact add_of_isSome st b h0b
    · intro hnone
      rw [hnone] at h0
      simp at h0
  · have h0n : alookup st.exactSet (normalizeStr a) = none :=
      Option.not_isSome_iff_eq_none.1 (by simpa using h0)
    cases hgs : gramSizeRange st.gramSizeLower st.gramSizeUpper with
    | nil =>
      have e1 : add st a = st := add_of_range_nil st a hgs
      refine ⟨?_, ?_, ?_⟩
      · rw [e1]; exact e1
      · rw [e1]; exact add_of_range_nil st b hgs
      · intro _ hle
        exfalso
        have : (gramSizeRange st.gramSizeLower st.gramSizeUpper).length = 0 := by
          rw [hgs]; rfl
        unfold gramSizeRange at this
        rw [List.length_range'] at this
        omega
    | cons g t =>
      have hsome : alookup (add st a).exactSet (normalizeStr a) = some a :=
        add_lookup_self st a h0n (by rw [hgs]; simp)
      refine ⟨?_, ?_, fun _ _ => hsome⟩
      · exact add_of_isSome (add st a) a (by rw [hsome]; rfl)
      · exact add_of_isSome (add st a) b (by rw [← hab, hsome]; rfl)

/-- Claim C4, witness: a concrete index, `add "AB"` twice and then `add "aB"`
(same normalized form), checking the no-ops and the catalog binding. -/
theorem c4_theorem_witness :
    add (add (buildState 2 3 true [['x']]) ['A', 'B']) ['A', 'B'] =
      add (buildState 2 3 true [['x']]) ['A', 'B'] ∧
    add (add (buildState 2 3 true [['x']]) ['A', 'B']) ['a', 'B'] =
      add (buildState 2 3 true [['x']]) ['A', 'B'] ∧
    alookup (add (buildState 2 3 true [['x']]) ['A', 'B']).exactSet
      (normalizeStr ['A', 'B']) = some ['A', 'B'] := by
  obtain ⟨h1, h2, h3⟩ := c4_theorem (buildState 2 3 true [['x']]) ['A', 'B'] ['a', 'B']
    (by decide)
  exact ⟨h1, h2, h3 (by decide) (by decide)⟩

/-! ### Claims C1 and C2: gram-size fallback and threshold monotonicity -/

/-- Raising the threshold can only shrink the set of scores that pass the
`score >= minMatchScore` test: the exact square-comparison decision procedure
is monotone in the rational threshold. -/
theorem scoreGe_mono {s : ScoreVal} {m1 m2 : ℚ} (h12 : m1 ≤ m2)
    (h : scoreGe s m2 = true) : scoreGe s m1 = true := by
  unfold scoreGe at h ⊢
  by_cases hn : s.isNaN
  · rw [if_pos hn] at h
    exact absurd h (by simp)
  · rw [if_neg hn] at h ⊢
    unfold intGeSqrt at h ⊢
    have hd0 : (0 : Int) ≤ (s.den : Int) := Int.ofNat_nonneg _
    have hr0 : (0 : Int) ≤ (s.rad : Int) := Int.ofNat_nonneg _
    have he1 : (0 : Int) < (m1.den : Int) := by exact_mod_cast m1.pos
    have he2 : (0 : Int) < (m2.den : Int) := by exact_mod_cast m2.pos
    have hord : m1.num * (m2.den : Int) ≤ m2.num * (m1.den : Int) := Rat.le_def.1 h12
    split at h <;> split <;>
      simp only [decide_eq_true_eq] at h ⊢ <;>
      rename_i h2 h1
    · -- both thresholds give nonnegative right-hand sides
      obtain ⟨hpl, hsq⟩ := h
      have hp : 0 ≤ s.num := by
        by_contra hneg
        nlinarith [mul_neg_of_neg_of_pos (not_le.1 hneg) he2]
      refine ⟨mul_nonneg hp he1.le, ?_⟩
      by_cases ha1 : 0 ≤ m1.num
      · have hsq1 : (m1.num * m2.den) * (m1.num * m2.den) ≤
            (m2.num * m1.den) * (m2.num * m1.den) :=
          mul_self_le_mul_self (mul_nonneg ha1 he2.le) hord
        have key : (m1.num * s.den * (m1.num * s.den) * s.rad) * ((m2.den : Int) * m2.den) ≤
            (s.num * m1.den * (s.num * m1.den)) * ((m2.den : Int) * m2.den) := by
          calc (m1.num * s.den * (m1.num * s.den) * s.rad) * ((m2.den : Int) * m2.den)
              = ((m1.num * m2.den) * (m1.num * m2.den)) *
                ((s.den : Int) * s.den * s.rad) := by ring
            _ ≤ ((m2.num * m1.den) * (m2.num * m1.den)) *
                ((s.den : Int) * s.den * s.rad) :=
                mul_le_mul_of_nonneg_right hsq1
                  (mul_nonneg (mul_nonneg hd0 hd0) hr0)
            _ = (m2.num * s.den * (m2.num * s.den) * s.rad) *
                ((m1.den : Int) * m1.den) := by ring
            _ ≤ (s.num * m2.den * (s.num * m2.den)) * ((m1.den : Int) * m1.den) :=
                mul_le_mul_of_nonneg_right hsq
                  (mul_nonneg he1.le he1.le)
            _ = (s.num * m1.den * (s.num * m1.den)) * ((m2.den : Int) * m2.den) := by ring
        exact le_of_mul_le_mul_right key (mul_pos he2 he2)
      · have hdz : (s.den : Int) = 0 := by
          by_contra hne
          have hdp : (0 : Int) < (s.den : Int) := lt_of_le_of_ne hd0 (Ne.symm hne)
          nlinarith [mul_neg_of_neg_of_pos (not_le.1 ha1) hdp]
        rw [hdz]
        simpa using mul_self_nonneg (s.num * (m1.den : Int))
    · -- second threshold negative: left disjunct
      obtain ⟨hpl, -⟩ := h
      have hp : 0 ≤ s.num := by
        by_contra hneg
        nlinarith [mul_neg_of_neg_of_pos (not_le.1 hneg) he2]
      exact Or.inl (mul_nonneg hp he1.le)
    · -- m2 side negative but m1 side nonnegative: impossible
      exfalso
      have h2' := not_le.1 h2
      have hdnz : (s.den : Int) ≠ 0 := by
        intro hz
        rw [hz, mul_zero] at h2'
        exact lt_irrefl 0 h2'
      have hdp : (0 : Int) < (s.den : Int) := lt_of_le_of_ne hd0 (Ne.symm hdnz)
      have ha2 : m2.num < 0 := by nlinarith
      have ha1 : m1.num < 0 := by nlinarith [mul_neg_of_neg_of_pos ha2 he1]
      nlinarith [mul_neg_of_neg_of_pos ha1 hdp]
    · -- both sides negative
      rcases h with hple | hsq
      · have hp : 0 ≤ s.num := by
          by_contra hneg
          nlinarith [mul_neg_of_neg_of_pos (not_le.1 hneg) he2]
        exact Or.inl (mul_nonneg hp he1.le)
      · by_cases hp : 0 ≤ s.num
        · exact Or.inl (mul_nonneg hp he1.le)
        · refine Or.inr ?_
          have h2' := not_le.1 h2
          have hdnz : (s.den : Int) ≠ 0 := by
            intro hz
            rw [hz, mul_zero] at h2'
            exact lt_irrefl 0 h2'
          have hdp : (0 : Int) < (s.den : Int) := lt_of_le_of_ne hd0 (Ne.symm hdnz)
          have ha2 : m2.num < 0 := by nlinarith
          have ha1e : m1.num * (m2.den : Int) ≤ m2.num * m1.den := hord
          have ha2e : m2.num * (m1.den : Int) < 0 := mul_neg_of_neg_of_pos ha2 he1
          have hsq1 : (m2.num * m1.den) * (m2.num * m1.den) ≤
              (m1.num * m2.den) * (m1.num * m2.den) := by
            have hnn : (0 : Int) ≤ -(m2.num * m1.den) := neg_nonneg.2 ha2e.le
            have := mul_self_le_mul_self hnn (neg_le_neg hord)
            calc (m2.num * m1.den) * (m2.num * m1.den)
                = -(m2.num * m1.den) * -(m2.num * m1.den) := by ring
              _ ≤ -(m1.num * m2.den) * -(m1.num * m2.den) := this
              _ = (m1.num * m2.den) * (m1.num * m2.den) := by ring
          have key : (s.num * m1.den * (s.num * m1.den)) * ((m2.den : Int) * m2.den) ≤
              (m1.num * s.den * (m1.num * s.den) * s.rad) * ((m2.den : Int) * m2.den) := by
            calc (s.num * m1.den * (s.num * m1.den)) * ((m2.den : Int) * m2.den)
                = (s.num * m2.den * (s.num * m2.den)) * ((m1.den : Int) * m1.den) := by ring
              _ ≤ (m2.num * s.den * (m2.num * s.den) * s.rad) *
                  ((m1.den : Int) * m1.den) :=
                  mul_le_mul_of_nonneg_right hsq (mul_nonneg he1.le he1.le)
              _ = ((m2.num * m1.den) * (m2.num * m1.den)) *
                  ((s.den : Int) * s.den * s.rad) := by ring
              _ ≤ ((m1.num * m2.den) * (m1.num * m2.den)) *
                  ((s.den : Int) * s.den * s.rad) :=
                  mul_le_mul_of_nonneg_right hsq1
                    (mul_nonneg (mul_nonneg hd0 hd0) hr0)
              _ = (m1.num * s.den * (m1.num * s.den) * s.rad) *
                  ((m2.den : Int) * m2.den) := by ring
          exact le_of_mul_le_mul_right key (mul_pos he2 he2)

/-- A small concrete index shared by the C1 and C2 counterexamples: entries
`"abxxx"`, `"b"`, `"a"`, Levenshtein refinement on (the default). -/
def demoState : State :=
  buildState 2 3 true [['a', 'b', 'x', 'x', 'x'], ['b'], ['a']]

/-- Claim C1, counterexample: on `demoState` with query `"ab"` and threshold
`9/20`, gram size 3 has a candidate (`"abxxx"`, via the shared gram `"-ab"`),
so `__get 3` returns a list — but the threshold filter empties it, and instead
of stopping there with that (empty) candidate set, `_get` goes on to consult
gram size 2 and returns its two results. -/
theorem c1_counterexample :
    getAtSize demoState ['a', 'b'] 3 (mkRat 9 20) = some [] ∧
    getInner demoState ['a', 'b'] (mkRat 9 20) =
      some [(⟨1, 2, 1, false⟩, ['b']), (⟨1, 2, 1, false⟩, ['a'])] ∧
    getInner demoState ['a', 'b'] (mkRat 9 20) ≠ some [] := by decide

/-- Claim C2, counterexample: on `demoState` with query `"ab"`, raising the
threshold from `7/20` to `9/20` *increases* the number of results from 1 to 2,
because the higher threshold empties the gram-size-3 result list and `_get`
falls back to gram size 2, where more candidates pass. -/
theorem c2_counterexample :
    mkRat 7 20 ≤ mkRat 9 20 ∧
    resCount (getInner demoState ['a', 'b'] (mkRat 7 20)) = 1 ∧
    resCount (getInner demoState ['a', 'b'] (mkRat 9 20)) = 2 := by decide

/-- The candidate list of `__get` before the `minMatchScore` filter (cosine
scoring, descending sort, optional Levenshtein refinement of the top 50); it
does not depend on the threshold. -/
def rawResults (st : State) (v : List Char) (g : Nat) : List (ScoreVal × List Char) :=
  let normalizedValue := normalizeStr v
  let gramCounts := gramCounter normalizedValue g
  let items := lookupItems st g
  let results := (sortKeysAsc (accumMatches st gramCounts)).map (fun m =>
    let it := items.getD m.1 (0, [])
    ((⟨(m.2 : Int), 1, sumSquares gramCounts * it.1, false⟩ : ScoreVal), it.2))
  let results := sortScoresDesc results
  if st.useLevenshtein then
    sortScoresDesc ((results.take 50).map (fun r => (distance r.2 normalizedValue, r.2)))
  else results

/-- `__get` is the threshold filter and catalog projection applied to
`rawResults` (definitional repackaging used to reason about thresholds). -/
theorem getAtSize_eq (st : State) (v : List Char) (g : Nat) (m : ℚ) :
    getAtSize st v g m =
      if accumMatches st (gramCounter (normalizeStr v) g) = [] then none
      else some (((rawResults st v g).filter (fun r => scoreGe r.1 m)).map
        (fun r => (r.1, (alookup st.exactSet r.2).getD []))) := rfl

/-- Claim C2, amended: threshold monotonicity does hold for the scoring
stage at each fixed gram size — for a fixed state, query and gram size,
`__get` with a higher threshold returns at most as many results as with a
lower one (the full `get` violates this only through the gram-size fallback,
see the counterexample). -/
theorem c2_theorem (st : State) (q : List Char) (g : Nat) (m1 m2 : ℚ) (h : m1 ≤ m2) :
    resCount (getAtSize st q g m2) ≤ resCount (getAtSize st q g m1) := by
  by_cases hm : accumMatches st (gramCounter (normalizeStr q) g) = []
  · rw [getAtSize_eq, getAtSize_eq, if_pos hm, if_pos hm]
  · rw [getAtSize_eq, getAtSize_eq, if_neg hm, if_neg hm]
    simp only [resCount, List.length_map]
    rw [← List.countP_eq_length_filter, ← List.countP_eq_length_filter]
    exact List.countP_mono_left (fun x _ hx => scoreGe_mono h hx)

/-- Claim C2, amended, witness at gram size 2 of the demo index. -/
theorem c2_theorem_witness :
    resCount (getAtSize demoState ['a', 'b'] 2 (mkRat 9 20)) ≤
      resCount (getAtSize demoState ['a', 'b'] 2 (mkRat 7 20)) :=
  c2_theorem demoState ['a', 'b'] 2 (mkRat 7 20) (mkRat 9 20) (by decide)

/-- Unfolding equation for one step of the `_get` fallback loop. -/
theorem getLoop_cons (st : State) (v : List Char) (m : ℚ) (g : Nat) (gs : List Nat) :
    getLoop st v m (g :: gs) = match getAtSize st v g m with
      | some r => if 0 < r.length then some r else getLoop st v m gs
      | none => getLoop st v m gs := rfl

/-- Gram sizes whose threshold-filtered result list is empty (or that have
no candidates at all) are skipped by the fallback loop. -/
theorem getLoop_append_none (st : State) (v : List Char) (m : ℚ) (gs1 gs2 : List Nat)
    (h : ∀ g ∈ gs1, ∀ r, getAtSize st v g m = some r → r = []) :
    getLoop st v m (gs1 ++ gs2) = getLoop st v m gs2 := by
  induction gs1 with
  | nil => rfl
  | cons g t ih =>
    simp only [List.cons_append, getLoop_cons]
    cases hg : getAtSize st v g m with
    | none => exact ih (fun g2 hm r hr => h g2 (List.mem_cons_of_mem _ hm) r hr)
    | some r =>
      have hr : r = [] := h g (List.mem_cons_self _ _) r hg
      subst hr
      dsimp only
      rw [if_neg (by simp)]
      exact ih (fun g2 hm r hr => h g2 (List.mem_cons_of_mem _ hm) r hr)

/-- When every tried gram size comes back empty, the fallback loop returns
`null`. -/
theorem getLoop_none (st : State) (v : List Char) (m : ℚ) (gs : List Nat)
    (h : ∀ g ∈ gs, ∀ r, getAtSize st v g m = some r → r = []) :
    getLoop st v m gs = none := by
  have e := getLoop_append_none st v m gs [] h
  rw [List.append_nil] at e
  exact e

/-- Splitting the configured gram-size range at an interior point. -/
theorem gramSizeRange_split {lower g upper : Nat} (h1 : lower ≤ g) (h2 : g ≤ upper) :
    gramSizeRange lower upper =
      (List.range' lower (g - lower) ++ [g]) ++ gramSizeRange (g + 1) upper := by
  unfold gramSizeRange
  have e2 : List.range' lower (g - lower) ++ [g] = List.range' lower (g - lower + 1) := by
    rw [List.range'_concat lower (g - lower)]
    congr 2
    omega
  rw [e2]
  rw [show upper + 1 - (g + 1) = upper - g from by omega]
  rw [show g + 1 = lower + 1 * (g - lower + 1) from by omega]
  rw [List.range'_append lower (g - lower + 1) (upper - g) 1]
  congr 1
  omega

/-- Claim C1, amended: `_get` tries gram sizes from `gramSizeUpper` down to
`gramSizeLower` and stops at the first gram size whose *threshold-filtered*
result list is non-empty; a gram size whose candidates all fall below
`minMatchScore` is skipped exactly like a candidate-free one, and the result
is "no match" (`null`) precisely when every configured gram size yields an
empty or absent filtered list. -/
theorem c1_theorem (st : State) (q : List Char) (m : ℚ) :
    (∀ g, st.gramSizeLower ≤ g → g ≤ st.gramSizeUpper →
      (∀ g2, g < g2 → g2 ≤ st.gramSizeUpper →
        ∀ r, getAtSize st q g2 m = some r → r = []) →
      ∀ r, getAtSize st q g m = some r → r ≠ [] →
        getInner st q m = some r) ∧
    ((∀ g, st.gramSizeLower ≤ g → g ≤ st.gramSizeUpper →
        ∀ r, getAtSize st q g m = some r → r = []) →
      getInner st q m = none) := by
  constructor
  · intro g hg1 hg2 hskip r hr hne
    unfold getInner
    rw [gramSizeRange_split hg1 hg2]
    simp only [List.reverse_append, List.reverse_cons, List.reverse_nil, List.nil_append,
      List.append_assoc, List.cons_append, List.singleton_append]
    have hupper : ∀ g2 ∈ (gramSizeRange (g + 1) st.gramSizeUpper).reverse,
        ∀ r2, getAtSize st q g2 m = some r2 → r2 = [] := by
      intro g2 hmem r2 hr2
      rw [List.mem_reverse] at hmem
      unfold gramSizeRange at hmem
      rw [List.mem_range'] at hmem
      obtain ⟨i, hi, rfl⟩ := hmem
      exact hskip _ (by omega) (by omega) r2 hr2
    rw [getLoop_append_none st q m _ _ hupper]
    rw [getLoop_cons, hr]
    dsimp only
    rw [if_pos (by cases r with | nil => exact absurd rfl hne | cons a t => simp)]
  · intro hall
    unfold getInner
    apply getLoop_none
    intro g hmem
    rw [List.mem_reverse] at hmem
    unfold gramSizeRange at hmem
    rw [List.mem_range'] at hmem
    obtain ⟨i, hi, rfl⟩ := hmem
    exact hall _ (by omega) (by omega)

/-- Claim C1, amended, witness: on the demo index the first gram size with a
non-empty filtered list is 2 (size 3 is skipped as filtered-empty), and `_get`
returns exactly the size-2 list. -/
theorem c1_theorem_witness :
    getInner demoState ['a', 'b'] (mkRat 9 20) =
      some [(⟨1, 2, 1, false⟩, ['b']), (⟨1, 2, 1, false⟩, ['a'])] := by
  have h3 : getAtSize demoState ['a', 'b'] 3 (mkRat 9 20) = some [] := by decide
  refine ( c1_theorem demoState ['a', 'b'] (mkRat 9 20)).1 2 (by decide) (by decide)
    ?_ _ (by decide) (by decide)
  intro g2 hlt hle r hr
  have hup : demoState.gramSizeUpper = 3 := by decide
  rw [hup] at hle
  have hg : g2 = 3 := by omega
  subst hg
  rw [h3] at hr
  exact (Option.some_inj.1 hr).symm

/-! ### Claim C6: Levenshtein distance and the similarity formula -/

/-- Deleting every character: `levRef xs [] = |xs|`. -/
theorem levRef_nil_right : ∀ xs : List Char, levRef xs [] = xs.length := by
  intro xs
  induction xs with
  | nil => rfl
  | cons x t ih =>
    show levRef t [] + 1 = t.length + 1
    rw [ih]

/-- The defining recurrence of `levRef` on two non-empty strings. -/
theorem levRef_cons_cons (x : Char) (xs : List Char) (y : Char) (ys : List Char) :
    levRef (x :: xs) (y :: ys) =
      if x = y then levRef xs ys
      else min (min (levRef (x :: xs) ys) (levRef xs (y :: ys))) (levRef xs ys) + 1 :=
  rfl

/-- Specification of the suffix of a DP row: entries `levRef (prefix).reverse v`
for successively longer prefixes of `str1`, where `u` is the reversed prefix
consumed so far and `v` is the reversed processed prefix of `str2`. -/
def specRow (v : List Char) : List Char → List Char → List Nat
  | _, [] => []
  | u, c :: rest => levRef (c :: u) v :: specRow v (c :: u) rest

/-- A full DP row: `current[j] = levRef (take j str1).reverse v` for
`j = 0 .. |str1|`. -/
def fullRow (s1 v : List Char) : List Nat := v.length :: specRow v [] s1

/-- One inner pass of the rolling-row program computes the next row of the
reference table (heads of reversed prefixes are the last characters the
textbook matrix recurrence compares). -/
theorem levRow_spec (c2 : Char) (v : List Char) :
    ∀ (s1rem u : List Char),
      levRow c2 s1rem (specRow v u s1rem) (levRef u v) (levRef u (c2 :: v)) =
        specRow (c2 :: v) u s1rem := by
  intro s1rem
  induction s1rem with
  | nil => intro u; rfl
  | cons c1 rest ih =>
    intro u
    show levRow c2 (c1 :: rest) (levRef (c1 :: u) v :: specRow v (c1 :: u) rest)
        (levRef u v) (levRef u (c2 :: v)) =
      levRef (c1 :: u) (c2 :: v) :: specRow (c2 :: v) (c1 :: u) rest
    unfold levRow
    simp only [List.headD_cons, List.tail_cons]
    rw [← levRef_cons_cons c1 u c2 v]
    rw [ih (c1 :: u)]

/-- The outer loop maintains the row invariant across `str2`. -/
theorem levRows_spec (s1 : List Char) :
    ∀ (s2rem v : List Char),
      levRows s1 s2rem (v.length + 1) (fullRow s1 v) = fullRow s1 (s2rem.reverse ++ v) := by
  intro s2rem
  induction s2rem with
  | nil => intro v; rfl
  | cons c2 rest ih =>
    intro v
    show levRows s1 rest (v.length + 1 + 1)
        ((v.length + 1) :: levRow c2 s1 (fullRow s1 v).tail ((fullRow s1 v).headD 0)
          (v.length + 1)) = _
    have hrow : (v.length + 1) :: levRow c2 s1 (fullRow s1 v).tail
        ((fullRow s1 v).headD 0) (v.length + 1) = fullRow s1 (c2 :: v) := by
      unfold fullRow
      simp only [List.headD_cons, List.tail_cons]
      congr 1
      exact levRow_spec c2 v s1 []
    rw [hrow]
    have h2 := ih (c2 :: v)
    have h3 : levRows s1 rest (v.length + 1 + 1) (fullRow s1 (c2 :: v)) =
        fullRow s1 (rest.reverse ++ (c2 :: v)) := h2
    rw [h3]
    congr 1
    simp [List.reverse_cons, List.append_assoc]

/-- Before any character of `str2` is processed the row is `0, 1, 2, ...`. -/
theorem specRow_nil_v : ∀ (s u : List Char),
    specRow [] u s = List.range' (u.length + 1) s.length := by
  intro s
  induction s with
  | nil => intro u; rfl
  | cons c rest ih =>
    intro u
    show levRef (c :: u) [] :: specRow [] (c :: u) rest = _
    rw [levRef_nil_right, ih (c :: u)]
    rfl

/-- The initial row of the program equals the specification row for the empty
processed prefix. -/
theorem fullRow_init (s1 : List Char) : fullRow s1 [] = List.range (s1.length + 1) := by
  unfold fullRow
  rw [specRow_nil_v, List.range_eq_range']
  rfl

/-- Reading `current[str1.length]` off a specification row. -/
theorem specRow_last (v : List Char) : ∀ (s u : List Char) (x : Nat),
    (x :: specRow v u s).getD s.length 0 =
      if s = [] then x else levRef (s.reverse ++ u) v := by
  intro s
  induction s with
  | nil => intro u x; rfl
  | cons c rest ih =>
    intro u x
    show (levRef (c :: u) v :: specRow v (c :: u) rest).getD rest.length 0 = _
    rw [ih (c :: u) (levRef (c :: u) v)]
    cases rest with
    | nil => simp
    | cons d t =>
      simp only [if_neg (List.cons_ne_nil d t), if_neg (List.cons_ne_nil c (d :: t))]
      congr 1
      simp [List.reverse_cons, List.append_assoc]

/-- The rolling-row program computes the reference distance of the reversed
strings (prefix orientation versus head recursion). -/
theorem levenshtein_eq_rev (s1 s2 : List Char) :
    levenshtein s1 s2 = levRef s1.reverse s2.reverse := by
  unfold FuzzySearch.levenshtein
  rw [← fullRow_init s1]
  have h0 : levRows s1 s2 1 (fullRow s1 []) = fullRow s1 (s2.reverse ++ []) :=
    levRows_spec s1 s2 []
  rw [h0, List.append_nil]
  unfold fullRow
  rw [specRow_last s2.reverse s1 [] s2.reverse.length]
  cases s1 with
  | nil => simp [levRef]
  | cons c t =>
    rw [if_neg (by simp)]
    rw [List.append_nil]

/-- Inserting every character: `levRef [] v = |v|`. -/
theorem levRef_nil_left (v : List Char) : levRef [] v = v.length := rfl

theorem min3_le_a {x y z : Nat} : min (min x y) z ≤ x :=
  le_trans (min_le_left _ _) (min_le_left _ _)

theorem min3_le_b {x y z : Nat} : min (min x y) z ≤ y :=
  le_trans (min_le_left _ _) (min_le_right _ _)

theorem min3_le_c {x y z : Nat} : min (min x y) z ≤ z := min_le_right _ _

theorem le_min3 {w x y z : Nat} (h1 : w ≤ x) (h2 : w ≤ y) (h3 : w ≤ z) :
    w ≤ min (min x y) z := le_min (le_min h1 h2) h3

/-- Regrouping a nine-way minimum by columns instead of rows. -/
theorem min9_swap (a1 a2 a3 b1 b2 b3 c1 c2 c3 : Nat) :
    min (min (min (min a1 a2) a3) (min (min b1 b2) b3)) (min (min c1 c2) c3) =
    min (min (min (min a1 b1) c1) (min (min a2 b2) c2)) (min (min a3 b3) c3) := by
  apply le_antisymm
  · exact le_min3
      (le_min3 (le_trans min3_le_a min3_le_a) (le_trans min3_le_b min3_le_a)
        (le_trans min3_le_c min3_le_a))
      (le_min3 (le_trans min3_le_a min3_le_b) (le_trans min3_le_b min3_le_b)
        (le_trans min3_le_c min3_le_b))
      (le_min3 (le_trans min3_le_a min3_le_c) (le_trans min3_le_b min3_le_c)
        (le_trans min3_le_c min3_le_c))
  · exact le_min3
      (le_min3 (le_trans min3_le_a min3_le_a) (le_trans min3_le_b min3_le_a)
        (le_trans min3_le_c min3_le_a))
      (le_min3 (le_trans min3_le_a min3_le_b) (le_trans min3_le_b min3_le_b)
        (le_trans min3_le_c min3_le_b))
      (le_min3 (le_trans min3_le_a min3_le_c) (le_trans min3_le_b min3_le_c)
        (le_trans min3_le_c min3_le_c))

/-- The min-algebra identity at the heart of the snoc/cons recurrence
exchange: both groupings compute the overall minimum plus two. -/
theorem minNine (a1 a2 a3 b1 b2 b3 c1 c2 c3 : Nat) :
    min (min (min (min a1 a2) a3 + 1) (min (min b1 b2) b3 + 1)) (min (min c1 c2) c3 + 1) + 1 =
    min (min (min (min a1 b1) c1 + 1) (min (min a2 b2) c2 + 1)) (min (min a3 b3) c3 + 1) + 1 := by
  have e1 : ∀ x y : Nat, min (x + 1) (y + 1) = min x y + 1 := by
    intro x y
    omega
  rw [e1, e1, e1, e1, min9_swap]


/-- `levRef` also satisfies the matrix (last-character) recurrence: appending
one character to each string obeys the same three-way minimum rule as
prepending. -/
theorem levRef_snoc : ∀ (n : Nat) (xs ys : List Char), xs.length + ys.length ≤ n →
    ∀ (c d : Char), levRef (xs ++ [c]) (ys ++ [d]) =
      if c = d then levRef xs ys
      else min (min (levRef (xs ++ [c]) ys) (levRef xs (ys ++ [d]))) (levRef xs ys) + 1 := by
  intro n
  induction n with
  | zero =>
    intro xs ys h c d
    have hx : xs = [] := List.length_eq_zero.1 (by omega)
    have hy : ys = [] := List.length_eq_zero.1 (by omega)
    subst hx; subst hy
    simp only [List.nil_append]
    exact levRef_cons_cons c [] d []
  | succ n ih =>
    intro xs ys h c d
    cases xs with
    | nil =>
      cases ys with
      | nil =>
        simp only [List.nil_append]
        exact levRef_cons_cons c [] d []
      | cons y B =>
        simp only [List.length_cons, List.length_nil] at h
        simp only [List.nil_append, List.cons_append]
        rw [levRef_cons_cons c [] y (B ++ [d])]
        have hIH := ih [] B (by simp only [List.length_nil]; omega) c d
        simp only [List.nil_append] at hIH
        rw [levRef_cons_cons c [] y B]
        rw [hIH]
        clear hIH ih
        simp only [levRef_nil_left, List.length_cons, List.length_append,
          List.length_singleton, List.length_nil]
        rcases eq_or_ne c y with h1 | h1
        · subst h1
          rcases eq_or_ne c d with h2 | h2
          · subst h2
            simp only [eq_self_iff_true, if_true]
            try omega
            try omega
          · simp only [eq_self_iff_true, if_true, if_neg h2]
            try omega
        · rcases eq_or_ne c d with h2 | h2
          · subst h2
            simp only [eq_self_iff_true, if_true, if_neg h1]
            try omega
          · simp only [if_neg h1, if_neg h2]
            try omega
    | cons x A =>
      cases ys with
      | nil =>
        simp only [List.length_cons, List.length_nil] at h
        simp only [List.nil_append, List.cons_append]
        rw [levRef_cons_cons x (A ++ [c]) d []]
        have hIH := ih A [] (by simp only [List.length_nil]; omega) c d
        simp only [List.nil_append] at hIH
        rw [levRef_cons_cons x A d []]
        rw [hIH]
        clear hIH ih
        simp only [levRef_nil_right, levRef_nil_left, List.length_cons, List.length_append,
          List.length_singleton, List.length_nil]
        rcases eq_or_ne x d with h1 | h1
        · subst h1
          rcases eq_or_ne c x with h2 | h2
          · subst h2
            simp only [eq_self_iff_true, if_true]
            try omega
            try omega
          · simp only [eq_self_iff_true, if_true, if_neg h2]
            try omega
        · rcases eq_or_ne c d with h2 | h2
          · subst h2
            simp only [eq_self_iff_true, if_true, if_neg h1]
            try omega
          · simp only [if_neg h1, if_neg h2]
            try omega
      | cons y B =>
        simp only [List.length_cons] at h
        simp only [List.cons_append]
        rw [levRef_cons_cons x (A ++ [c]) y (B ++ [d])]
        have hIH1 := ih A B (by omega) c d
        have hIH2 := ih (x :: A) B (by simp only [List.length_cons]; omega) c d
        have hIH3 := ih A (y :: B) (by simp only [List.length_cons]; omega) c d
        simp only [List.cons_append] at hIH2 hIH3
        rw [levRef_cons_cons x (A ++ [c]) y B, levRef_cons_cons x A y (B ++ [d]),
          levRef_cons_cons x A y B]
        rw [hIH1, hIH2, hIH3]
        clear hIH1 hIH2 hIH3 ih
        rcases eq_or_ne x y with h1 | h1
        · subst h1
          rcases eq_or_ne c d with h2 | h2
          · subst h2
            simp only [eq_self_iff_true, if_true]
            try omega
          · simp only [eq_self_iff_true, if_true, if_neg h2]
            try omega
        · rcases eq_or_ne c d with h2 | h2
          · subst h2
            simp only [eq_self_iff_true, if_true, if_neg h1]
            try omega
          · simp only [if_neg h1, if_neg h2]
            exact minNine _ _ _ _ _ _ _ _ _

/-! ### Index invariants (for claims C5, C7, C8): gram positivity,
matchDict growth, fold effects, entry witnesses, reachable-state invariant -/

theorem iterateGrams_ne_nil (v : List Char) (g : Nat) : iterateGrams v g ≠ [] := by
  unfold iterateGrams
  intro h
  rw [List.map_eq_nil_iff, List.range_eq_nil] at h
  omega

theorem foldl_abump_ne_nil {α : Type} [DecidableEq α] :
    ∀ (l : List α) (acc : List (α × Nat)), acc ≠ [] ∨ l ≠ [] →
      l.foldl (fun acc gr => abump acc gr 1) acc ≠ [] := by
  intro l
  induction l with
  | nil =>
    intro acc h
    rcases h with h | h
    · exact h
    · exact absurd rfl h
  | cons x t ih =>
    intro acc h
    simp only [List.foldl_cons]
    refine ih _ (Or.inl ?_)
    cases acc with
    | nil => simp [abump]
    | cons p r =>
      unfold abump
      split <;> simp

theorem gramCounter_ne_nil (v : List Char) (g : Nat) : gramCounter v g ≠ [] := by
  unfold gramCounter
  exact foldl_abump_ne_nil _ _ (Or.inr (iterateGrams_ne_nil v g))

theorem abump_snd_pos {α : Type} [DecidableEq α] (acc : List (α × Nat)) (k : α) (d : Nat)
    (hd : 1 ≤ d) (hacc : ∀ p ∈ acc, 1 ≤ p.2) : ∀ p ∈ abump acc k d, 1 ≤ p.2 := by
  induction acc with
  | nil =>
    intro p hp
    simp only [abump, List.mem_singleton] at hp
    subst hp
    exact hd
  | cons q t ih =>
    intro p hp
    unfold abump at hp
    split at hp
    · rcases List.mem_cons.1 hp with h | h
      · subst h
        have := hacc q (List.mem_cons_self _ _)
        simp only
        omega
      · exact hacc p (List.mem_cons_of_mem _ h)
    · rcases List.mem_cons.1 hp with h | h
      · subst h
        exact hacc q (List.mem_cons_self _ _)
      · exact ih (fun r hr => hacc r (List.mem_cons_of_mem _ hr)) p h

theorem gramCounter_snd_pos (v : List Char) (g : Nat) :
    ∀ p ∈ gramCounter v g, 1 ≤ p.2 := by
  unfold gramCounter
  have aux : ∀ (l : List (List Char)) (acc : List (List Char × Nat)),
      (∀ p ∈ acc, 1 ≤ p.2) →
      ∀ p ∈ l.foldl (fun acc gr => abump acc gr 1) acc, 1 ≤ p.2 := by
    intro l
    induction l with
    | nil => intro acc h; exact h
    | cons x t ih =>
      intro acc h
      simp only [List.foldl_cons]
      exact ih _ (abump_snd_pos acc x 1 le_rfl h)
  exact aux _ [] (by simp)

theorem sumSquares_pos (v : List Char) (g : Nat) :
    1 ≤ sumSquares (gramCounter v g) := by
  have hne := gramCounter_ne_nil v g
  have hpos := gramCounter_snd_pos v g
  unfold sumSquares
  cases hgc : gramCounter v g with
  | nil => exact absurd hgc hne
  | cons p t =>
    have hp : 1 ≤ p.2 := by
      refine hpos p ?_
      rw [hgc]
      exact List.mem_cons_self _ _
    simp only [List.map_cons, List.sum_cons]
    have : 1 ≤ p.2 * p.2 := Nat.one_le_iff_ne_zero.2 (by positivity)
    omega

/-- Growth relation on `matchDict`: every existing posting list is only ever
appended to, and every appended or newly created posting satisfies `P`. -/
def MdGrows (md md2 : List (List Char × List (Nat × Nat))) (P : Nat × Nat → Prop) : Prop :=
  ∀ gram, (∀ ps, alookup md gram = some ps →
      ∃ t, alookup md2 gram = some (ps ++ t) ∧ ∀ p ∈ t, P p) ∧
    (alookup md gram = none → ∀ ps2, alookup md2 gram = some ps2 → ∀ p ∈ ps2, P p)

theorem MdGrows.rfl {md : List (List Char × List (Nat × Nat))} {P : Nat × Nat → Prop} :
    MdGrows md md P := by
  intro gram
  constructor
  · intro ps h
    exact ⟨[], by simpa using h, by simp⟩
  · intro h ps2 h2
    rw [h] at h2
    exact absurd h2 (by simp)

theorem MdGrows.trans {md1 md2 md3 : List (List Char × List (Nat × Nat))}
    {P : Nat × Nat → Prop} (h12 : MdGrows md1 md2 P) (h23 : MdGrows md2 md3 P) :
    MdGrows md1 md3 P := by
  intro gram
  constructor
  · intro ps h
    obtain ⟨t1, ht1, hp1⟩ := (h12 gram).1 ps h
    obtain ⟨t2, ht2, hp2⟩ := (h23 gram).1 _ ht1
    refine ⟨t1 ++ t2, by simpa [List.append_assoc] using ht2, ?_⟩
    intro p hp
    rcases List.mem_append.1 hp with h | h
    · exact hp1 p h
    · exact hp2 p h
  · intro h ps2 h2
    cases hmid : alookup md2 gram with
    | none => exact (h23 gram).2 hmid ps2 h2
    | some psm =>
      have hm := (h12 gram).2 h psm hmid
      obtain ⟨t2, ht2, hp2⟩ := (h23 gram).1 psm hmid
      rw [h2] at ht2
      intro p hp
      have he : ps2 = psm ++ t2 := Option.some_inj.1 ht2
      subst he
      rcases List.mem_append.1 hp with h | h
      · exact hm p h
      · exact hp2 p h

theorem mdGrows_apush {md : List (List Char × List (Nat × Nat))} {P : Nat × Nat → Prop}
    (k : List Char) (x : Nat × Nat) (hx : P x) : MdGrows md (apush md k x) P := by
  intro gram
  by_cases hg : gram = k
  · subst hg
    constructor
    · intro ps h
      refine ⟨[x], ?_, by simpa using hx⟩
      rw [alookup_apush_self, h]
      rfl
    · intro h ps2 h2
      rw [alookup_apush_self, h] at h2
      intro p hp
      have he : ps2 = [x] := by simpa using (Option.some_inj.1 h2).symm
      subst he
      simp only [List.mem_singleton] at hp
      subst hp
      exact hx
  · constructor
    · intro ps h
      exact ⟨[], by simpa [alookup_apush_other md x hg] using h, by simp⟩
    · intro h ps2 h2
      rw [alookup_apush_other md x hg, h] at h2
      exact absurd h2 (by simp)

theorem MdGrows.mono {md md2 : List (List Char × List (Nat × Nat))}
    {P Q : Nat × Nat → Prop} (h : MdGrows md md2 P) (hpq : ∀ p, P p → Q p) :
    MdGrows md md2 Q := by
  intro gram
  constructor
  · intro ps hps
    obtain ⟨t, ht, hp⟩ := (h gram).1 ps hps
    exact ⟨t, ht, fun p hp2 => hpq p (hp p hp2)⟩
  · intro hn ps2 h2
    exact fun p hp => hpq p ((h gram).2 hn ps2 h2 p hp)

theorem mdGrows_foldl_apush {P : Nat × Nat → Prop} (idx : Nat) :
    ∀ (gc : List (List Char × Nat)) (md : List (List Char × List (Nat × Nat))),
      (∀ p ∈ gc, P (idx, p.2)) →
      MdGrows md (gc.foldl (fun md p => apush md p.1 (idx, p.2)) md) P := by
  intro gc
  induction gc with
  | nil => intro md _; exact MdGrows.rfl
  | cons q t ih =>
    intro md h
    simp only [List.foldl_cons]
    exact MdGrows.trans (mdGrows_apush q.1 (idx, q.2) (h q (List.mem_cons_self _ _)))
      (ih _ (fun p hp => h p (List.mem_cons_of_mem _ hp)))

theorem mem_foldl_apush (idx : Nat) :
    ∀ (gc : List (List Char × Nat)) (md : List (List Char × List (Nat × Nat))),
      ∀ p ∈ gc, ∃ ps, alookup (gc.foldl (fun md p => apush md p.1 (idx, p.2)) md) p.1 =
        some ps ∧ (idx, p.2) ∈ ps := by
  intro gc
  induction gc with
  | nil => intro md p hp; simp at hp
  | cons q t ih =>
    intro md p hp
    simp only [List.foldl_cons]
    rcases List.mem_cons.1 hp with h | h
    · subst h
      have hself := alookup_apush_self md p.1 (idx, p.2)
      have hgrow : MdGrows (apush md p.1 (idx, p.2))
          (t.foldl (fun md q => apush md q.1 (idx, q.2)) (apush md p.1 (idx, p.2)))
          (fun _ => True) := mdGrows_foldl_apush idx t _ (by simp)
      obtain ⟨t2, ht2, -⟩ := (hgrow p.1).1 _ hself
      exact ⟨_, ht2, by simp⟩
    · exact ih _ p h

theorem addAtSize_exactSet (st : State) (v : List Char) (g : Nat) :
    (addAtSize st v g).exactSet = aset st.exactSet (normalizeStr v) v := rfl

theorem addAtSize_params (st : State) (v : List Char) (g : Nat) :
    (addAtSize st v g).gramSizeLower = st.gramSizeLower ∧
    (addAtSize st v g).gramSizeUpper = st.gramSizeUpper ∧
    (addAtSize st v g).useLevenshtein = st.useLevenshtein := ⟨rfl, rfl, rfl⟩

theorem addAtSize_matchDict (st : State) (v : List Char) (g : Nat) :
    (addAtSize st v g).matchDict =
      (gramCounter (normalizeStr v) g).foldl
        (fun md p => apush md p.1 ((lookupItems st g).length, p.2)) st.matchDict := rfl

theorem addAtSize_items (st : State) (v : List Char) (g : Nat) :
    (addAtSize st v g).items = aset st.items g
      (lookupItems st g ++ [(sumSquares (gramCounter (normalizeStr v) g), normalizeStr v)]) :=
  rfl

theorem lookupItems_addAtSize (st : State) (v : List Char) (g g0 : Nat) :
    lookupItems (addAtSize st v g) g0 =
      if g0 = g then
        lookupItems st g ++ [(sumSquares (gramCounter (normalizeStr v) g), normalizeStr v)]
      else lookupItems st g0 := by
  by_cases h : g0 = g
  · subst h
    unfold lookupItems
    rw [addAtSize_items, alookup_aset_self]
    simp [lookupItems]
  · unfold lookupItems
    rw [addAtSize_items, alookup_aset_other _ _ h, if_neg h]

theorem aset_aset {α β : Type} [DecidableEq α] (m : List (α × β)) (k : α) (v1 v2 : β) :
    aset (aset m k v1) k v2 = aset m k v2 := by
  induction m with
  | nil => simp [aset]
  | cons p t ih =>
    obtain ⟨pk, pv⟩ := p
    by_cases h : k = pk
    · simp [aset, h]
    · simp [aset, h, ih]

theorem foldAdd_exactSet (v : List Char) : ∀ (gs : List Nat) (st : State),
    (gs.foldl (fun s g => addAtSize s v g) st).exactSet =
      if gs = [] then st.exactSet else aset st.exactSet (normalizeStr v) v := by
  intro gs
  induction gs with
  | nil => intro st; rfl
  | cons g t ih =>
    intro st
    simp only [List.foldl_cons]
    rw [ih]
    cases t with
    | nil => simp [addAtSize_exactSet]
    | cons g2 t2 =>
      simp only [if_neg (List.cons_ne_nil _ _)]
      rw [addAtSize_exactSet, aset_aset]

theorem foldAdd_params : ∀ (gs : List Nat) (st : State) (v : List Char),
    (gs.foldl (fun s g => addAtSize s v g) st).gramSizeLower = st.gramSizeLower ∧
    (gs.foldl (fun s g => addAtSize s v g) st).gramSizeUpper = st.gramSizeUpper ∧
    (gs.foldl (fun s g => addAtSize s v g) st).useLevenshtein = st.useLevenshtein := by
  intro gs
  induction gs with
  | nil => intro st v; exact ⟨rfl, rfl, rfl⟩
  | cons g t ih =>
    intro st v
    simp only [List.foldl_cons]
    exact ih (addAtSize st v g) v

theorem add_params (st : State) (v : List Char) :
    (add st v).gramSizeLower = st.gramSizeLower ∧
    (add st v).gramSizeUpper = st.gramSizeUpper ∧
    (add st v).useLevenshtein = st.useLevenshtein := by
  unfold add
  split
  · exact ⟨rfl, rfl, rfl⟩
  · exact foldAdd_params _ st v

theorem buildState_params (lower upper : Nat) (useLev : Bool) (raws : List (List Char)) :
    (buildState lower upper useLev raws).gramSizeLower = lower ∧
    (buildState lower upper useLev raws).gramSizeUpper = upper ∧
    (buildState lower upper useLev raws).useLevenshtein = useLev := by
  unfold buildState
  have aux : ∀ (l : List (List Char)) (st : State),
      (l.foldl add st).gramSizeLower = st.gramSizeLower ∧
      (l.foldl add st).gramSizeUpper = st.gramSizeUpper ∧
      (l.foldl add st).useLevenshtein = st.useLevenshtein := by
    intro l
    induction l with
    | nil => intro st; exact ⟨rfl, rfl, rfl⟩
    | cons r t ih =>
      intro st
      simp only [List.foldl_cons]
      obtain ⟨h1, h2, h3⟩ := ih (add st r)
      obtain ⟨g1, g2, g3⟩ := add_params st r
      exact ⟨h1.trans g1, h2.trans g2, h3.trans g3⟩
  exact aux raws _

theorem foldAdd_lookupItems_of_not_mem (v : List Char) : ∀ (gs : List Nat) (st : State)
    (g0 : Nat), g0 ∉ gs →
    lookupItems (gs.foldl (fun s g => addAtSize s v g) st) g0 = lookupItems st g0 := by
  intro gs
  induction gs with
  | nil => intro st g0 _; rfl
  | cons g t ih =>
    intro st g0 h
    simp only [List.foldl_cons]
    rw [ih _ _ (fun hm => h (List.mem_cons_of_mem _ hm)),
      lookupItems_addAtSize, if_neg (fun he => h (by rw [he]; exact List.mem_cons_self _ _))]

theorem foldAdd_lookupItems_of_mem (v : List Char) : ∀ (gs : List Nat) (st : State)
    (g0 : Nat), gs.Nodup → g0 ∈ gs →
    lookupItems (gs.foldl (fun s g => addAtSize s v g) st) g0 =
      lookupItems st g0 ++
        [(sumSquares (gramCounter (normalizeStr v) g0), normalizeStr v)] := by
  intro gs
  induction gs with
  | nil => intro st g0 _ h; simp at h
  | cons g t ih =>
    intro st g0 hnd hm
    have hnd2 := List.nodup_cons.1 hnd
    simp only [List.foldl_cons]
    rcases List.mem_cons.1 hm with h | h
    · subst h
      rw [foldAdd_lookupItems_of_not_mem v t _ _ hnd2.1,
        lookupItems_addAtSize, if_pos rfl]
    · have hne : g0 ≠ g := fun he => hnd2.1 (by rw [← he]; exact h)
      rw [ih _ _ hnd2.2 h, lookupItems_addAtSize, if_neg hne]

theorem foldAdd_mdGrowsTrue (v : List Char) : ∀ (gs : List Nat) (st : State),
    MdGrows st.matchDict
      ((gs.foldl (fun s g => addAtSize s v g) st).matchDict) (fun _ => True) := by
  intro gs
  induction gs with
  | nil => intro st; exact MdGrows.rfl
  | cons g t ih =>
    intro st
    simp only [List.foldl_cons]
    refine MdGrows.trans ?_ (ih (addAtSize st v g))
    rw [addAtSize_matchDict]
    exact mdGrows_foldl_apush _ _ _ (by simp)

theorem foldAdd_mdGrows (v : List Char) (n : Nat) : ∀ (gs : List Nat) (st : State),
    (∀ g ∈ gs, (lookupItems st g).length = n) → gs.Nodup →
    MdGrows st.matchDict ((gs.foldl (fun s g => addAtSize s v g) st).matchDict)
      (fun p => p.1 = n ∧ 1 ≤ p.2) := by
  intro gs
  induction gs with
  | nil => intro st _ _; exact MdGrows.rfl
  | cons g t ih =>
    intro st hlen hnd
    have hnd2 := List.nodup_cons.1 hnd
    simp only [List.foldl_cons]
    refine MdGrows.trans ?_ (ih (addAtSize st v g) ?_ hnd2.2)
    · rw [addAtSize_matchDict]
      refine mdGrows_foldl_apush _ _ _ ?_
      intro p hp
      exact ⟨hlen g (List.mem_cons_self _ _), gramCounter_snd_pos _ _ p hp⟩
    · intro g2 hg2
      rw [lookupItems_addAtSize, if_neg (fun he => hnd2.1 (by rw [← he]; exact hg2))]
      exact hlen g2 (List.mem_cons_of_mem _ hg2)

/-- The index holds a complete record of an inserted normalized string `w` at
gram size `g`: entry `i` of the record list stores its norm radicand and `w`,
and every gram of `w` carries a posting `(i, count)` in `matchDict`. -/
def EntryWitness (st : State) (g i : Nat) (w : List Char) : Prop :=
  i < (lookupItems st g).length ∧
  (lookupItems st g).getD i (0, []) = (sumSquares (gramCounter w g), w) ∧
  ∀ p ∈ gramCounter w g, ∃ ps, alookup st.matchDict p.1 = some ps ∧ (i, p.2) ∈ ps

theorem entryWitness_mono {st st2 : State} {g i : Nat} {w : List Char}
    (hE : EntryWitness st g i w)
    (hit : ∃ t, lookupItems st2 g = lookupItems st g ++ t)
    (hmd : MdGrows st.matchDict st2.matchDict (fun _ => True)) :
    EntryWitness st2 g i w := by
  obtain ⟨h, hget, hpost⟩ := hE
  obtain ⟨t, ht⟩ := hit
  refine ⟨by rw [ht, List.length_append]; omega, ?_, ?_⟩
  · rw [ht, List.getD_append _ _ _ _ h]
    exact hget
  · intro p hp
    obtain ⟨ps, hps, hmem⟩ := hpost p hp
    obtain ⟨t2, ht2, -⟩ := (hmd p.1).1 ps hps
    exact ⟨ps ++ t2, ht2, List.mem_append_left _ hmem⟩

theorem addAtSize_entryWitness (st : State) (v : List Char) (g : Nat) :
    EntryWitness (addAtSize st v g) g (lookupItems st g).length (normalizeStr v) := by
  have hli := lookupItems_addAtSize st v g g
  rw [if_pos rfl] at hli
  refine ⟨by rw [hli, List.length_append]; simp, ?_, ?_⟩
  · rw [hli, List.getD_append_right _ _ _ _ le_rfl, Nat.sub_self]
    rfl
  · intro p hp
    rw [addAtSize_matchDict]
    exact mem_foldl_apush _ _ _ p hp

theorem foldAdd_entryWitness (v : List Char) : ∀ (gs : List Nat) (st : State) (g : Nat),
    gs.Nodup → g ∈ gs →
    EntryWitness (gs.foldl (fun s g2 => addAtSize s v g2) st) g
      (lookupItems st g).length (normalizeStr v) := by
  intro gs
  induction gs with
  | nil => intro st g _ h; simp at h
  | cons g0 t ih =>
    intro st g hnd hm
    have hnd2 := List.nodup_cons.1 hnd
    simp only [List.foldl_cons]
    rcases List.mem_cons.1 hm with h | h
    · subst h
      refine entryWitness_mono (addAtSize_entryWitness st v g) ?_ ?_
      · exact ⟨[], by rw [foldAdd_lookupItems_of_not_mem v t _ _ hnd2.1, List.append_nil]⟩
      · exact foldAdd_mdGrowsTrue v t _
    · have hne : g ≠ g0 := fun he => hnd2.1 (by rw [← he]; exact h)
      have hlen : (lookupItems (addAtSize st v g0) g).length =
          (lookupItems st g).length := by
        rw [lookupItems_addAtSize, if_neg hne]
      have hres := ih (addAtSize st v g0) g hnd2.2 h
      rw [hlen] at hres
      exact hres

theorem mem_gramSizeRange {lower upper g : Nat} :
    g ∈ gramSizeRange lower upper ↔ lower ≤ g ∧ g ≤ upper := by
  unfold gramSizeRange
  rw [List.mem_range']
  constructor
  · rintro ⟨i, hi, rfl⟩
    omega
  · rintro ⟨h1, h2⟩
    exact ⟨g - lower, by omega, by omega⟩

theorem add_entryWitness (st : State) (v : List Char)
    (hfresh : alookup st.exactSet (normalizeStr v) = none)
    (g : Nat) (h1 : st.gramSizeLower ≤ g) (h2 : g ≤ st.gramSizeUpper) :
    EntryWitness (add st v) g (lookupItems st g).length (normalizeStr v) ∧
    alookup (add st v).exactSet (normalizeStr v) = some v := by
  unfold add
  rw [if_neg (by rw [hfresh]; simp)]
  have hmem : g ∈ gramSizeRange st.gramSizeLower st.gramSizeUpper :=
    mem_gramSizeRange.2 ⟨h1, h2⟩
  have hnil : gramSizeRange st.gramSizeLower st.gramSizeUpper ≠ [] := by
    intro hn
    rw [hn] at hmem
    simp at hmem
  constructor
  · exact foldAdd_entryWitness v _ st g (List.nodup_range' _ _) hmem
  · rw [foldAdd_exactSet, if_neg hnil]
    exact alookup_aset_self _ _ _

theorem add_preserves_entryWitness (st : State) (r : List Char) {g i : Nat} {w : List Char}
    (hE : EntryWitness st g i w) : EntryWitness (add st r) g i w := by
  unfold add
  split
  · exact hE
  · refine entryWitness_mono hE ?_ (foldAdd_mdGrowsTrue r _ st)
    by_cases hm : g ∈ gramSizeRange st.gramSizeLower st.gramSizeUpper
    · exact ⟨_, foldAdd_lookupItems_of_mem r _ st g (List.nodup_range' _ _) hm⟩
    · exact ⟨[], by rw [foldAdd_lookupItems_of_not_mem r _ st g hm, List.append_nil]⟩

theorem add_preserves_lookup_some (st : State) (r : List Char) {w s : List Char}
    (hlook : alookup st.exactSet w = some s) :
    alookup (add st r).exactSet w = some s := by
  unfold add
  split
  · exact hlook
  · rename_i hnot
    rw [foldAdd_exactSet]
    split
    · exact hlook
    · have hne : w ≠ normalizeStr r := by
        intro he
        rw [he] at hlook
        rw [hlook] at hnot
        simp at hnot
      rw [alookup_aset_other _ _ hne]
      exact hlook

theorem add_preserves_lookup_none (st : State) (r : List Char) {w : List Char}
    (hne : normalizeStr r ≠ w) (hlook : alookup st.exactSet w = none) :
    alookup (add st r).exactSet w = none := by
  unfold add
  split
  · exact hlook
  · rw [foldAdd_exactSet]
    split
    · exact hlook
    · rw [alookup_aset_other _ _ (Ne.symm hne)]
      exact hlook

/-- Structural invariant of every reachable index state: every configured
gram size has exactly one record per catalog entry, every posting references a
valid entry index and a positive gram count, and every stored record holds the
sum-of-squares radicand of its own gram-count vector. -/
structure StateInv (st : State) : Prop where
  lenEq : ∀ g, st.gramSizeLower ≤ g → g ≤ st.gramSizeUpper →
    (lookupItems st g).length = st.exactSet.length
  postings : ∀ gram ps, alookup st.matchDict gram = some ps →
    ∀ p ∈ ps, p.1 < st.exactSet.length ∧ 1 ≤ p.2
  stored : ∀ g, st.gramSizeLower ≤ g → g ≤ st.gramSizeUpper →
    ∀ e ∈ lookupItems st g, e.1 = sumSquares (gramCounter e.2 g)

theorem initState_lookupItems (lower upper : Nat) (useLev : Bool) (g : Nat) :
    lookupItems (initState lower upper useLev) g = [] := by
  unfold lookupItems initState
  have aux : ∀ (l : List Nat),
      (alookup (l.map (fun g2 => (g2, ([] : List (Nat × List Char))))) g).getD [] = [] := by
    intro l
    induction l with
    | nil => rfl
    | cons x t ih =>
      simp only [List.map_cons]
      unfold alookup
      split
      · rfl
      · exact ih
  exact aux _

theorem inv_init (lower upper : Nat) (useLev : Bool) :
    StateInv (initState lower upper useLev) := by
  refine ⟨?_, ?_, ?_⟩
  · intro g _ _
    rw [initState_lookupItems]
    rfl
  · intro gram ps h
    exact absurd h (by simp [initState, alookup])
  · intro g _ _ e he
    rw [initState_lookupItems] at he
    simp at he

theorem inv_add (st : State) (v : List Char) (h : StateInv st) : StateInv (add st v) := by
  rw [show add st v = if (alookup st.exactSet (normalizeStr v)).isSome then st
      else (gramSizeRange st.gramSizeLower st.gramSizeUpper).foldl
        (fun s g => addAtSize s v g) st from rfl]
  split
  · exact h
  · rename_i hfresh
    have hfresh2 : alookup st.exactSet (normalizeStr v) = none :=
      Option.not_isSome_iff_eq_none.1 (by simpa using hfresh)
    set gs := gramSizeRange st.gramSizeLower st.gramSizeUpper with hgs
    by_cases hnil : gs = []
    · rw [hnil]
      exact h
    · have hnd : gs.Nodup := List.nodup_range' _ _
      have hparams := foldAdd_params gs st v
      have hex : ((gs.foldl (fun s g => addAtSize s v g) st).exactSet) =
          aset st.exactSet (normalizeStr v) v := by
        rw [foldAdd_exactSet, if_neg hnil]
      have hexlen : ((gs.foldl (fun s g => addAtSize s v g) st).exactSet).length =
          st.exactSet.length + 1 := by
        rw [hex]
        exact length_aset_of_none _ _ hfresh2
      have hmd := foldAdd_mdGrows v st.exactSet.length gs st
        (fun g hg => h.lenEq g (mem_gramSizeRange.1 hg).1 (mem_gramSizeRange.1 hg).2) hnd
      refine ⟨?_, ?_, ?_⟩
      · intro g hg1 hg2
        rw [hparams.1] at hg1
        rw [hparams.2.1] at hg2
        rw [foldAdd_lookupItems_of_mem v gs st g hnd (mem_gramSizeRange.2 ⟨hg1, hg2⟩),
          List.length_append, hexlen, h.lenEq g hg1 hg2]
        rfl
      · intro gram ps2 hps2 p hp
        rw [hexlen]
        cases hold : alookup st.matchDict gram with
        | some ps =>
          obtain ⟨t, ht, hP⟩ := (hmd gram).1 ps hold
          rw [hps2] at ht
          have he : ps2 = ps ++ t := Option.some_inj.1 ht
          subst he
          rcases List.mem_append.1 hp with hm | hm
          · have := h.postings gram ps hold p hm
            omega
          · have := hP p hm
            omega
        | none =>
          have := (hmd gram).2 hold ps2 hps2 p hp
          omega
      · intro g hg1 hg2 e he
        rw [hparams.1] at hg1
        rw [hparams.2.1] at hg2
        rw [foldAdd_lookupItems_of_mem v gs st g hnd (mem_gramSizeRange.2 ⟨hg1, hg2⟩)] at he
        rcases List.mem_append.1 he with hm | hm
        · exact h.stored g hg1 hg2 e hm
        · simp only [List.mem_singleton] at hm
          subst hm
          rfl

theorem inv_build (lower upper : Nat) (useLev : Bool) (raws : List (List Char)) :
    StateInv (buildState lower upper useLev raws) := by
  unfold buildState
  have aux : ∀ (l : List (List Char)) (st : State), StateInv st → StateInv (l.foldl add st) := by
    intro l
    induction l with
    | nil => intro st h; exact h
    | cons r t ih =>
      intro st h
      simp only [List.foldl_cons]
      exact ih _ (inv_add st r h)
  exact aux raws _ (inv_init lower upper useLev)

/-- Claim C7: after any sequence of insertions (constructor plus `add` calls),
every configured gram size `g` has exactly as many records in `items[g]` as
the catalog `exactSet` has entries. -/
theorem c7_theorem (lower upper : Nat) (useLev : Bool) (raws : List (List Char)) (g : Nat)
    (h1 : lower ≤ g) (h2 : g ≤ upper) :
    (lookupItems (buildState lower upper useLev raws) g).length =
      FuzzySearch.length (buildState lower upper useLev raws) := by
  have hp := buildState_params lower upper useLev raws
  exact (inv_build lower upper useLev raws).lenEq g (by rw [hp.1]; exact h1)
    (by rw [hp.2.1]; exact h2)

/-- Claim C7, witness on a concrete two-entry index. -/
theorem c7_theorem_witness :
    (lookupItems (buildState 2 3 true [['a'], ['b', 'c']]) 2).length =
      FuzzySearch.length (buildState 2 3 true [['a'], ['b', 'c']]) :=
  c7_theorem 2 3 true [['a'], ['b', 'c']] 2 (by decide) (by decide)

/-- Claim C8: the cosine-scoring stage is total on every reachable state —
every query gram-count vector has sum of squares at least 1 (so the query norm
is at least 1, even for the empty string), every stored record's radicand is
at least 1 (so no candidate norm is 0), every posting references a valid
record index with a positive count, and the record list has exactly one entry
per catalog entry, so `items[matchIndex]` is always in bounds and the score
division `dot / (sqrt qss * sqrt css)` never divides by zero. -/
theorem c8_theorem (lower upper : Nat) (useLev : Bool) (raws : List (List Char)) :
    (∀ v g, 1 ≤ sumSquares (gramCounter v g)) ∧
    (∀ g, lower ≤ g → g ≤ upper →
      ∀ e ∈ lookupItems (buildState lower upper useLev raws) g, 1 ≤ e.1) ∧
    (∀ gram ps, alookup (buildState lower upper useLev raws).matchDict gram = some ps →
      ∀ p ∈ ps, p.1 < FuzzySearch.length (buildState lower upper useLev raws) ∧ 1 ≤ p.2) ∧
    (∀ g, lower ≤ g → g ≤ upper →
      (lookupItems (buildState lower upper useLev raws) g).length =
        FuzzySearch.length (buildState lower upper useLev raws)) := by
  have hp := buildState_params lower upper useLev raws
  have hi := inv_build lower upper useLev raws
  refine ⟨fun v g => sumSquares_pos v g, ?_, ?_, ?_⟩
  · intro g hg1 hg2 e he
    have := hi.stored g (by rw [hp.1]; exact hg1) (by rw [hp.2.1]; exact hg2) e he
    rw [this]
    exact sumSquares_pos _ _
  · intro gram ps hps p hp2
    exact hi.postings gram ps hps p hp2
  · intro g hg1 hg2
    exact hi.lenEq g (by rw [hp.1]; exact hg1) (by rw [hp.2.1]; exact hg2)

/-- Claim C8, witness on a concrete index (including an empty-string query
vector at gram size 3, the record and the posting of the single entry). -/
theorem c8_theorem_witness :
    1 ≤ sumSquares (gramCounter [] 3) ∧
    1 ≤ ((lookupItems (buildState 2 3 true [['a', 'b']]) 2).getD 0 (0, [])).1 ∧
    (((0, 1) : Nat × Nat).1 < FuzzySearch.length (buildState 2 3 true [['a', 'b']]) ∧
      1 ≤ (((0, 1) : Nat × Nat)).2) ∧
    (lookupItems (buildState 2 3 true [['a', 'b']]) 2).length =
      FuzzySearch.length (buildState 2 3 true [['a', 'b']]) := by
  obtain ⟨w1, w2, w3, w4⟩ := c8_theorem 2 3 true [['a', 'b']]
  refine ⟨w1 [] 3, ?_, ?_, w4 2 (by decide) (by decide)⟩
  · exact w2 2 (by decide) (by decide) _ (by decide)
  · exact w3 ['-', 'a'] [(0, 1)] (by decide) (0, 1) (by decide)

/-! ### Claim C6 completion, and claim C5: self-match analysis -/

/-- `levRef` is invariant under reversing both strings (strong induction on the
total length, exchanging the first-character recurrence for the
last-character recurrence `levRef_snoc`). -/
theorem levRef_reverse : ∀ (n : Nat) (xs ys : List Char), xs.length + ys.length ≤ n →
    levRef xs.reverse ys.reverse = levRef xs ys := by
  intro n
  induction n with
  | zero =>
    intro xs ys h
    have hx : xs = [] := List.eq_nil_of_length_eq_zero (by omega)
    have hy : ys = [] := List.eq_nil_of_length_eq_zero (by omega)
    subst hx
    subst hy
    rfl
  | succ n ih =>
    intro xs ys h
    cases xs with
    | nil => simp [levRef_nil_left]
    | cons x xs2 =>
      cases ys with
      | nil => simp [levRef_nil_right]
      | cons y ys2 =>
        simp only [List.reverse_cons]
        rw [levRef_snoc (xs2.reverse.length + ys2.reverse.length) xs2.reverse ys2.reverse
          le_rfl x y]
        rw [levRef_cons_cons]
        simp only [List.length_cons] at h
        have e3 := ih xs2 ys2 (by omega)
        have e1 := ih (x :: xs2) ys2 (by simp only [List.length_cons]; omega)
        have e2 := ih xs2 (y :: ys2) (by simp only [List.length_cons]; omega)
        simp only [List.reverse_cons] at e1 e2
        rw [e1, e2, e3]

/-- The rolling one-row dynamic program computes the textbook Levenshtein
distance. -/
theorem levenshtein_eq_levRef (s1 s2 : List Char) : levenshtein s1 s2 = levRef s1 s2 := by
  rw [levenshtein_eq_rev]
  exact levRef_reverse (s1.length + s2.length) s1 s2 le_rfl

/-- Claim C6: for every pair of strings not both empty, the `levenshtein`
method computes the reference edit distance (minimum number of
single-character insertions, deletions and substitutions, `levRef`), and the
`_distance` similarity is exactly `1 - d / max(|a|, |b|)`: the score value
`⟨max - d, max, 1, false⟩` denotes `(max - d) / (max * sqrt 1)`.  (For two
empty strings JS computes `1 - 0/0 = NaN`, which is why that pair is
excluded.) -/
theorem c6_theorem (a b : List Char) (h : a ≠ [] ∨ b ≠ []) :
    levenshtein a b = levRef a b ∧
    distance a b = ⟨((max a.length b.length : Nat) : Int) - levRef a b,
      max a.length b.length, 1, false⟩ := by
  have hl := levenshtein_eq_levRef a b
  refine ⟨hl, ?_⟩
  have hd : distance a b =
      if a.length = 0 ∧ b.length = 0 then ⟨0, 1, 1, true⟩
      else if b.length < a.length then
        ⟨(a.length : Int) - levenshtein a b, a.length, 1, false⟩
      else ⟨(b.length : Int) - levenshtein a b, b.length, 1, false⟩ := rfl
  rw [hd, if_neg (fun hc => h.elim
    (fun hne => hne (List.eq_nil_of_length_eq_zero hc.1))
    (fun hne => hne (List.eq_nil_of_length_eq_zero hc.2)))]
  rcases Nat.lt_or_ge b.length a.length with hc | hc
  · rw [if_pos hc, hl, Nat.max_eq_left (Nat.le_of_lt hc)]
  · rw [if_neg (Nat.not_lt.2 hc), hl, Nat.max_eq_right hc]

/-- Claim C6, witness on the pair `"ab"`, `"b"`: distance 1, similarity
`(2 - 1) / 2`. -/
theorem c6_theorem_witness :
    levenshtein ['a', 'b'] ['b'] = levRef ['a', 'b'] ['b'] ∧
    distance ['a', 'b'] ['b'] =
      ⟨((max (['a', 'b'] : List Char).length (['b'] : List Char).length : Nat) : Int) -
          levRef ['a', 'b'] ['b'],
        max (['a', 'b'] : List Char).length (['b'] : List Char).length, 1, false⟩ :=
  c6_theorem ['a', 'b'] ['b'] (Or.inl (by decide))

/-- Keys of the `matches` accumulator after one `abump`: unchanged when the
key is present, appended otherwise. -/
theorem abump_keys {α : Type} [DecidableEq α] (k : α) (d : Nat) :
    ∀ acc : List (α × Nat), (abump acc k d).map Prod.fst =
      if k ∈ acc.map Prod.fst then acc.map Prod.fst else acc.map Prod.fst ++ [k] := by
  intro acc
  induction acc with
  | nil => simp [abump]
  | cons q t ih =>
    obtain ⟨qk, qv⟩ := q
    by_cases h : k = qk
    · subst h
      simp [abump]
    · unfold abump
      rw [if_neg h]
      simp only [List.map_cons, List.mem_cons]
      by_cases hm : k ∈ t.map Prod.fst
      · rw [if_pos (Or.inr hm), ih, if_pos hm]
      · rw [if_neg (fun hc => hc.elim h hm), ih, if_neg hm]
        simp

theorem abump_keys_nodup {α : Type} [DecidableEq α] {acc : List (α × Nat)} (k : α) (d : Nat)
    (h : (acc.map Prod.fst).Nodup) : ((abump acc k d).map Prod.fst).Nodup := by
  rw [abump_keys]
  split
  · exact h
  · rename_i hm
    rw [List.nodup_append]
    exact ⟨h, List.nodup_singleton _, by simpa [List.disjoint_singleton] using hm⟩

theorem mem_keys_abump_self {α : Type} [DecidableEq α] (acc : List (α × Nat)) (k : α)
    (d : Nat) : k ∈ (abump acc k d).map Prod.fst := by
  rw [abump_keys]
  split
  · assumption
  · exact List.mem_append_right _ (List.mem_singleton_self k)

theorem mem_keys_abump_mono {α : Type} [DecidableEq α] {acc : List (α × Nat)} {k0 : α}
    (k : α) (d : Nat) (h : k0 ∈ acc.map Prod.fst) : k0 ∈ (abump acc k d).map Prod.fst := by
  rw [abump_keys]
  split
  · exact h
  · exact List.mem_append_left _ h

theorem mem_keys_abump_elim {α : Type} [DecidableEq α] {acc : List (α × Nat)} {k0 k : α}
    {d : Nat} (h : k0 ∈ (abump acc k d).map Prod.fst) :
    k0 ∈ acc.map Prod.fst ∨ k0 = k := by
  rw [abump_keys] at h
  split at h
  · exact Or.inl h
  · rcases List.mem_append.1 h with h | h
    · exact Or.inl h
    · exact Or.inr (List.mem_singleton.1 h)

theorem foldl_abump_keys_nodup {α β : Type} [DecidableEq α] (key : β → α) (dv : β → Nat) :
    ∀ (l : List β) (acc : List (α × Nat)), (acc.map Prod.fst).Nodup →
      ((l.foldl (fun a q => abump a (key q) (dv q)) acc).map Prod.fst).Nodup := by
  intro l
  induction l with
  | nil => intro acc h; exact h
  | cons x t ih =>
    intro acc h
    simp only [List.foldl_cons]
    exact ih _ (abump_keys_nodup _ _ h)

theorem foldl_abump_keys_mono {α β : Type} [DecidableEq α] (key : β → α) (dv : β → Nat) :
    ∀ (l : List β) (acc : List (α × Nat)) {k0 : α}, k0 ∈ acc.map Prod.fst →
      k0 ∈ (l.foldl (fun a q => abump a (key q) (dv q)) acc).map Prod.fst := by
  intro l
  induction l with
  | nil => intro acc k0 h; exact h
  | cons x t ih =>
    intro acc k0 h
    simp only [List.foldl_cons]
    exact ih _ (mem_keys_abump_mono _ _ h)

theorem foldl_abump_keys_self {α β : Type} [DecidableEq α] (key : β → α) (dv : β → Nat) :
    ∀ (l : List β) (acc : List (α × Nat)) {x : β}, x ∈ l →
      key x ∈ (l.foldl (fun a q => abump a (key q) (dv q)) acc).map Prod.fst := by
  intro l
  induction l with
  | nil => intro acc x h; simp at h
  | cons y t ih =>
    intro acc x h
    simp only [List.foldl_cons]
    rcases List.mem_cons.1 h with h | h
    · subst h
      exact foldl_abump_keys_mono key dv t _ (mem_keys_abump_self _ _ _)
    · exact ih _ h

theorem foldl_abump_keys_elim {α β : Type} [DecidableEq α] (key : β → α) (dv : β → Nat) :
    ∀ (l : List β) (acc : List (α × Nat)) {k0 : α},
      k0 ∈ (l.foldl (fun a q => abump a (key q) (dv q)) acc).map Prod.fst →
      k0 ∈ acc.map Prod.fst ∨ ∃ x ∈ l, k0 = key x := by
  intro l
  induction l with
  | nil => intro acc k0 h; exact Or.inl h
  | cons y t ih =>
    intro acc k0 h
    simp only [List.foldl_cons] at h
    rcases ih _ h with h2 | h2
    · rcases mem_keys_abump_elim h2 with h3 | h3
      · exact Or.inl h3
      · exact Or.inr ⟨y, List.mem_cons_self _ _, h3⟩
    · obtain ⟨x, hx, he⟩ := h2
      exact Or.inr ⟨x, List.mem_cons_of_mem _ hx, he⟩

/-- Keys of the fully accumulated `matches` object are duplicate-free (it is a
JS object keyed by entry index). -/
theorem accumAux_keys_nodup (st : State) :
    ∀ (gc : List (List Char × Nat)) (acc : List (Nat × Nat)), (acc.map Prod.fst).Nodup →
      ((gc.foldl (fun acc p =>
        match alookup st.matchDict p.1 with
        | none => acc
        | some ps => ps.foldl (fun acc q => abump acc q.1 (p.2 * q.2)) acc) acc).map
          Prod.fst).Nodup := by
  intro gc
  induction gc with
  | nil => intro acc h; exact h
  | cons p t ih =>
    intro acc h
    rw [List.foldl_cons]
    cases hl : alookup st.matchDict p.1 with
    | none => exact ih acc h
    | some ps => exact ih _ (foldl_abump_keys_nodup _ _ ps acc h)

theorem accumMatches_keys_nodup (st : State) (gc : List (List Char × Nat)) :
    ((accumMatches st gc).map Prod.fst).Nodup :=
  accumAux_keys_nodup st gc [] (by simp)

/-- Every key of the accumulator is a posted entry index, hence below the
number of catalog entries. -/
theorem accumAux_keys_bound (st : State) (n : Nat)
    (hpost : ∀ gram ps, alookup st.matchDict gram = some ps → ∀ p ∈ ps, p.1 < n) :
    ∀ (gc : List (List Char × Nat)) (acc : List (Nat × Nat)),
      (∀ k ∈ acc.map Prod.fst, k < n) →
      ∀ k ∈ (gc.foldl (fun acc p =>
        match alookup st.matchDict p.1 with
        | none => acc
        | some ps => ps.foldl (fun acc q => abump acc q.1 (p.2 * q.2)) acc) acc).map
          Prod.fst, k < n := by
  intro gc
  induction gc with
  | nil => intro acc h; exact h
  | cons p t ih =>
    intro acc h
    rw [List.foldl_cons]
    cases hl : alookup st.matchDict p.1 with
    | none => exact ih acc h
    | some ps =>
      refine ih _ ?_
      intro k hk
      rcases foldl_abump_keys_elim _ _ ps acc hk with h2 | h2
      · exact h k h2
      · obtain ⟨q, hq, he⟩ := h2
        subst he
        exact hpost p.1 ps hl q hq

theorem accumMatches_keys_bound (st : State) (n : Nat)
    (hpost : ∀ gram ps, alookup st.matchDict gram = some ps → ∀ p ∈ ps, p.1 < n)
    (gc : List (List Char × Nat)) : ∀ k ∈ (accumMatches st gc).map Prod.fst, k < n :=
  accumAux_keys_bound st n hpost gc [] (by simp)

/-- Keys already accumulated survive the remaining query grams. -/
theorem accumAux_keys_mono (st : State) :
    ∀ (gc : List (List Char × Nat)) (acc : List (Nat × Nat)) {k0 : Nat},
      k0 ∈ acc.map Prod.fst →
      k0 ∈ ((gc.foldl (fun acc p =>
        match alookup st.matchDict p.1 with
        | none => acc
        | some ps => ps.foldl (fun acc q => abump acc q.1 (p.2 * q.2)) acc) acc).map
          Prod.fst) := by
  intro gc
  induction gc with
  | nil => intro acc k0 h; exact h
  | cons p t ih =>
    intro acc k0 h
    rw [List.foldl_cons]
    cases hl : alookup st.matchDict p.1 with
    | none => exact ih acc h
    | some ps => exact ih _ (foldl_abump_keys_mono _ _ ps acc h)

/-- An entry index posted under any query gram becomes a key of the
accumulator. -/
theorem accumMatches_mem_key (st : State) (gc : List (List Char × Nat))
    {p0 : List Char × Nat} (hp0 : p0 ∈ gc) {ps : List (Nat × Nat)}
    (hlk : alookup st.matchDict p0.1 = some ps) {q : Nat × Nat} (hq : q ∈ ps) :
    q.1 ∈ (accumMatches st gc).map Prod.fst := by
  unfold accumMatches
  have aux : ∀ (l : List (List Char × Nat)) (acc : List (Nat × Nat)),
      p0 ∈ l →
      q.1 ∈ ((l.foldl (fun acc p =>
        match alookup st.matchDict p.1 with
        | none => acc
        | some ps => ps.foldl (fun acc q => abump acc q.1 (p.2 * q.2)) acc) acc).map
          Prod.fst) := by
    intro l
    induction l with
    | nil => intro acc h; simp at h
    | cons p t ih =>
      intro acc h
      rw [List.foldl_cons]
      rcases List.mem_cons.1 h with h | h
      · subst h
        rw [hlk]
        exact accumAux_keys_mono st t _
          (foldl_abump_keys_self (fun q => q.1) (fun q2 => p0.2 * q2.2) ps acc hq)
      · exact ih _ h
  exact aux gc [] hp0

/-- A duplicate-free list of pair keys below `n` has at most `n` pairs. -/
theorem keys_length_le (l : List (Nat × Nat)) (n : Nat)
    (hnd : (l.map Prod.fst).Nodup) (hb : ∀ k ∈ l.map Prod.fst, k < n) :
    l.length ≤ n := by
  have hsub : (l.map Prod.fst) ⊆ List.range n := fun k hk => List.mem_range.2 (hb k hk)
  have hle := (List.subperm_of_subset hnd hsub).length_le
  simpa using hle

/-- A fold of ordered inserts permutes the initial accumulator plus the input
(the generic fact behind both sort models). -/
theorem insert_fold_perm {α : Type} (ins : α → List α → List α)
    (hins : ∀ x l, (ins x l).Perm (x :: l)) :
    ∀ (l acc : List α), (l.foldl (fun a x => ins x a) acc).Perm (acc ++ l) := by
  intro l
  induction l with
  | nil => intro acc; simp
  | cons x t ih =>
    intro acc
    rw [List.foldl_cons]
    refine (ih (ins x acc)).trans ?_
    refine (List.Perm.append_right t (hins x acc)).trans ?_
    exact List.perm_middle.symm

theorem insertKeyAsc_perm (x : Nat × Nat) : ∀ l, (insertKeyAsc x l).Perm (x :: l) := by
  intro l
  induction l with
  | nil => exact List.Perm.refl _
  | cons y ys ih =>
    unfold insertKeyAsc
    split
    · exact List.Perm.refl _
    · exact (List.Perm.cons y ih).trans (List.Perm.swap x y ys)

theorem insertScoreDesc_perm (x : ScoreVal × List Char) :
    ∀ l, (insertScoreDesc x l).Perm (x :: l) := by
  intro l
  induction l with
  | nil => exact List.Perm.refl _
  | cons y ys ih =>
    unfold insertScoreDesc
    split
    · exact List.Perm.refl _
    · exact (List.Perm.cons y ih).trans (List.Perm.swap x y ys)

/-- The ascending key enumeration is a permutation of the accumulator. -/
theorem sortKeysAsc_perm (l : List (Nat × Nat)) : (sortKeysAsc l).Perm l := by
  have h := insert_fold_perm insertKeyAsc insertKeyAsc_perm l []
  simpa [sortKeysAsc] using h

/-- The stable descending score sort is a permutation of its input. -/
theorem sortScoresDesc_perm (l : List (ScoreVal × List Char)) :
    (sortScoresDesc l).Perm l := by
  have h := insert_fold_perm insertScoreDesc insertScoreDesc_perm l []
  simpa [sortScoresDesc] using h

/-- `levRef w w = 0`: a string needs no edits to become itself. -/
theorem levRef_self : ∀ w : List Char, levRef w w = 0 := by
  intro w
  induction w with
  | nil => rfl
  | cons x t ih =>
    rw [levRef_cons_cons, if_pos rfl]
    exact ih

/-- Self-distance of a non-empty string: distance 0, so the similarity score
is `|w| / (|w| * sqrt 1) = 1`. -/
theorem distance_self (w : List Char) (h : w ≠ []) :
    distance w w = ⟨(w.length : Int), w.length, 1, false⟩ := by
  have hd : distance w w =
      if w.length = 0 ∧ w.length = 0 then ⟨0, 1, 1, true⟩
      else if w.length < w.length then
        ⟨(w.length : Int) - levenshtein w w, w.length, 1, false⟩
      else ⟨(w.length : Int) - levenshtein w w, w.length, 1, false⟩ := rfl
  rw [hd, if_neg (fun hc => h (List.eq_nil_of_length_eq_zero hc.1)),
    if_neg (lt_irrefl _), levenshtein_eq_levRef, levRef_self]
  simp

/-- Unfolding `scoreGe` on a non-NaN score. -/
theorem scoreGe_notNaN (p : Int) (d rad : Nat) (m : ℚ) :
    scoreGe ⟨p, d, rad, false⟩ m =
      intGeSqrt (p * m.den) (m.num * d) rad := rfl

/-- A score of exactly 1 (`n / (n * sqrt 1)` — including the degenerate
`0/0`-free case `n = 0`, where the score value is `0/0·1` compared as `0`)
passes the default threshold `.33`. -/
theorem scoreGe_self (n : Nat) :
    scoreGe ⟨(n : Int), n, 1, false⟩ (mkRat 33 100) = true := by
  rw [scoreGe_notNaN]
  have h1 : (mkRat 33 100).num = 33 := by decide
  have h2 : (mkRat 33 100).den = 100 := by decide
  rw [h1, h2]
  unfold intGeSqrt
  rw [if_pos (by positivity)]
  rw [decide_eq_true_eq]
  constructor
  · positivity
  · push_cast
    nlinarith [sq_nonneg (n : Int)]

/-- `rawResults` with the Levenshtein refinement enabled, fully unfolded. -/
theorem rawResults_lev (st : State) (v : List Char) (g : Nat)
    (hlev : st.useLevenshtein = true) :
    rawResults st v g = sortScoresDesc
      (((sortScoresDesc ((sortKeysAsc (accumMatches st (gramCounter (normalizeStr v) g))).map
          (fun m => ((⟨(m.2 : Int), 1,
              sumSquares (gramCounter (normalizeStr v) g) *
                ((lookupItems st g).getD m.1 (0, [])).1, false⟩ : ScoreVal),
            ((lookupItems st g).getD m.1 (0, [])).2)))).take 50).map
        (fun r => (distance r.2 (normalizeStr v), r.2))) := by
  unfold rawResults
  rw [hlev]
  rfl

theorem mem_take_of_le {α : Type} {l : List α} {x : α} (h : x ∈ l) (hle : l.length ≤ 50) :
    x ∈ l.take 50 := by
  rw [List.take_of_length_le hle]
  exact h

/-- The heart of the self-match analysis: on a state that holds a complete
record of `normalizeStr s` at gram size `g` (and maps it back to the raw
string `s`), whose postings all carry valid entry indices, and with at most 50
entries, `__get` at size `g` with the default threshold `.33` succeeds and its
result contains `s` with the exact score 1 (`|w| / (|w| * sqrt 1)`). -/
theorem getAtSize_selfmatch (st : State) (s : List Char) (g i : Nat)
    (hE : EntryWitness st g i (normalizeStr s))
    (hpost : ∀ gram ps, alookup st.matchDict gram = some ps →
      ∀ p ∈ ps, p.1 < st.exactSet.length)
    (hlook : alookup st.exactSet (normalizeStr s) = some s)
    (hne : s ≠ [])
    (hsize : st.exactSet.length ≤ 50)
    (hlev : st.useLevenshtein = true) :
    ∃ res, getAtSize st s g (mkRat 33 100) = some res ∧
      ((⟨((normalizeStr s).length : Int), (normalizeStr s).length, 1, false⟩ : ScoreVal), s)
        ∈ res := by
  obtain ⟨hElen, hEget, hEpost⟩ := hE
  have hwne : normalizeStr s ≠ [] := by
    simpa [normalizeStr, List.map_eq_nil_iff] using hne
  obtain ⟨p0, hp0⟩ := List.exists_mem_of_ne_nil _ (gramCounter_ne_nil (normalizeStr s) g)
  obtain ⟨ps0, hps0, hmem0⟩ := hEpost p0 hp0
  have hkey : i ∈ (accumMatches st (gramCounter (normalizeStr s) g)).map Prod.fst :=
    accumMatches_mem_key st _ hp0 hps0 hmem0
  have hacc_ne : accumMatches st (gramCounter (normalizeStr s) g) ≠ [] := by
    intro h0
    rw [h0] at hkey
    simp at hkey
  obtain ⟨⟨k1, d⟩, hkd, hk1⟩ := List.mem_map.1 hkey
  dsimp only at hk1
  subst hk1
  have hd2 : (k1, d) ∈ sortKeysAsc (accumMatches st (gramCounter (normalizeStr s) g)) :=
    (sortKeysAsc_perm _).mem_iff.2 hkd
  rw [getAtSize_eq, if_neg hacc_ne]
  refine ⟨_, rfl, ?_⟩
  refine List.mem_map.2
    ⟨((⟨((normalizeStr s).length : Int), (normalizeStr s).length, 1, false⟩ : ScoreVal),
      normalizeStr s), ?_, ?_⟩
  · rw [List.mem_filter]
    refine ⟨?_, scoreGe_self (normalizeStr s).length⟩
    rw [rawResults_lev st s g hlev]
    refine (sortScoresDesc_perm _).mem_iff.2 ?_
    refine List.mem_map.2
      ⟨((⟨(d : Int), 1, sumSquares (gramCounter (normalizeStr s) g) *
          sumSquares (gramCounter (normalizeStr s) g), false⟩ : ScoreVal),
        normalizeStr s), ?_, ?_⟩
    · refine mem_take_of_le ?_ ?_
      · refine (sortScoresDesc_perm _).mem_iff.2 ?_
        refine List.mem_map.2 ⟨(k1, d), hd2, ?_⟩
        dsimp only
        rw [hEget]
      · rw [(sortScoresDesc_perm _).length_eq, List.length_map,
          (sortKeysAsc_perm _).length_eq]
        exact le_trans (keys_length_le _ _ (accumMatches_keys_nodup st _)
          (accumMatches_keys_bound st _ hpost _)) hsize
    · dsimp only
      rw [distance_self _ hwne]
  · dsimp only
    rw [hlook]
    rfl

/-- A fold of `add` over raw strings that all normalize away from `w` never
creates a catalog binding for `w`. -/
theorem foldAdd_exactSet_lookup_none (w : List Char) :
    ∀ (l : List (List Char)) (st0 : State), (∀ r ∈ l, normalizeStr r ≠ w) →
      alookup st0.exactSet w = none → alookup (l.foldl add st0).exactSet w = none := by
  intro l
  induction l with
  | nil => intro st0 _ h; exact h
  | cons r t ih =>
    intro st0 hf h
    rw [List.foldl_cons]
    exact ih _ (fun r2 h2 => hf r2 (List.mem_cons_of_mem _ h2))
      (add_preserves_lookup_none st0 r (hf r (List.mem_cons_self _ _)) h)

/-- Later insertions preserve an entry witness and its catalog binding. -/
theorem foldAdd_preserves (l : List (List Char)) :
    ∀ (st0 : State) {g i : Nat} {w sv : List Char},
      EntryWitness st0 g i w → alookup st0.exactSet w = some sv →
      EntryWitness (l.foldl add st0) g i w ∧
        alookup (l.foldl add st0).exactSet w = some sv := by
  induction l with
  | nil => intro st0 g i w sv hE hl; exact ⟨hE, hl⟩
  | cons r t ih =>
    intro st0 g i w sv hE hl
    rw [List.foldl_cons]
    exact ih _ (add_preserves_entryWitness st0 r hE) (add_preserves_lookup_some st0 r hl)

/-- The fallback loop of `_get` starts at the largest configured gram size. -/
theorem gramSizeRange_reverse_cons (lower upper : Nat) (h : lower ≤ upper) :
    (gramSizeRange lower upper).reverse =
      upper :: (List.range' lower (upper - lower)).reverse := by
  rw [gramSizeRange_split h le_rfl]
  have h2 : gramSizeRange (upper + 1) upper = [] := by
    unfold gramSizeRange
    rw [show upper + 1 - (upper + 1) = 0 from by omega]
    rfl
  rw [h2]
  simp [List.reverse_append]

/-- Splitting the constructor's fold at one distinguished raw string. -/
theorem buildState_append_cons (lower upper : Nat) (useLev : Bool)
    (pre post : List (List Char)) (s : List Char) :
    buildState lower upper useLev (pre ++ s :: post) =
      post.foldl add (add (buildState lower upper useLev pre) s) := by
  unfold buildState
  rw [List.foldl_append, List.foldl_cons]

/-- Claim C5, amended: self-match holds under two additional conditions the
original claim omits.  If `s` is non-empty, no *earlier* insertion normalizes
to the same string as `s` (otherwise `add s` is a no-op and the result maps
back to that earlier raw string instead of `s`), and the index holds at most
50 entries (otherwise the Levenshtein refinement's `top 50` cutoff can drop
`s`'s record entirely, see the counterexample), then `get(s)` with the default
threshold `.33` succeeds at the largest gram size and its result contains `s`
itself with score exactly 1 (`|w| / (|w| * sqrt 1)`). -/
theorem c5_theorem (lower upper : Nat) (pre post : List (List Char)) (s : List Char)
    (hfresh : ∀ r ∈ pre, normalizeStr r ≠ normalizeStr s)
    (hne : s ≠ [])
    (hlu : lower ≤ upper)
    (hsize : FuzzySearch.length (buildState lower upper true (pre ++ s :: post)) ≤ 50) :
    ∃ res, getInner (buildState lower upper true (pre ++ s :: post)) s (mkRat 33 100)
        = some res ∧ res ≠ [] ∧
      ((⟨((normalizeStr s).length : Int), (normalizeStr s).length, 1, false⟩ : ScoreVal), s)
        ∈ res := by
  have hsplit := buildState_append_cons lower upper true pre post s
  have hparams := buildState_params lower upper true (pre ++ s :: post)
  have hparams1 := buildState_params lower upper true pre
  have hfresh1 : alookup (buildState lower upper true pre).exactSet (normalizeStr s)
      = none := by
    unfold buildState
    exact foldAdd_exactSet_lookup_none _ pre _ hfresh rfl
  obtain ⟨hE2, hlook2⟩ := add_entryWitness (buildState lower upper true pre) s hfresh1
    upper (by rw [hparams1.1]; exact hlu) (le_of_eq hparams1.2.1.symm)
  have hpres := foldAdd_preserves post (add (buildState lower upper true pre) s) hE2 hlook2
  rw [← hsplit] at hpres
  obtain ⟨hE, hlook⟩ := hpres
  have hinv := inv_build lower upper true (pre ++ s :: post)
  obtain ⟨res, hres, hmem⟩ := getAtSize_selfmatch
    (buildState lower upper true (pre ++ s :: post)) s upper _ hE
    (fun gram ps h p hp => (hinv.postings gram ps h p hp).1)
    hlook hne hsize hparams.2.2
  refine ⟨res, ?_, List.ne_nil_of_mem hmem, hmem⟩
  unfold getInner
  rw [hparams.1, hparams.2.1, gramSizeRange_reverse_cons lower upper hlu, getLoop_cons,
    hres]
  dsimp only
  rw [if_pos (List.length_pos.2 (List.ne_nil_of_mem hmem))]

/-- Claim C5, amended, witness: a one-entry index, whose entry matches itself
with score 1. -/
theorem c5_theorem_witness :
    ∃ res, getInner (buildState 2 3 true [['a', 'b']]) ['a', 'b'] (mkRat 33 100)
        = some res ∧ res ≠ [] ∧
      ((⟨((normalizeStr ['a', 'b']).length : Int), (normalizeStr ['a', 'b']).length, 1,
        false⟩ : ScoreVal), ['a', 'b']) ∈ res :=
  c5_theorem 2 3 [] [] ['a', 'b'] (by simp) (by decide) (by decide) (by decide)

/-- All ways to insert a character into a list (structural recursion, so that
`decide` can evaluate it in the kernel). -/
def inserts (x : Char) : List Char → List (List Char)
  | [] => [[x]]
  | y :: ys => (x :: y :: ys) :: (inserts x ys).map (fun l => y :: l)

/-- All permutations of a list of characters, by repeated insertion. -/
def permsOf : List Char → List (List Char)
  | [] => [[]]
  | x :: xs => (permsOf xs).flatMap (inserts x)

/-- Interleave a string with `'a'`: `"bcd" ↦ "abacada"`.  Every interleaving
of a permutation of the same letters has exactly the same bigram multiset
(`ab`, `ba`, `ac`, `ca`, ...), so all receive identical cosine scores. -/
def interleave (p : List Char) : List Char :=
  'a' :: (p.foldr (fun c acc => c :: 'a' :: acc) [])

/-- 51 pairwise distinct strings with identical bigram multisets. -/
def corpus51 : List (List Char) :=
  ((permsOf ['b', 'c', 'd', 'e', 'f']).take 51).map interleave

/-- The 51st inserted string. -/
def sC : List Char := corpus51.getD 50 []

/-- The index over `corpus51` at gram sizes 2–2 with the Levenshtein
refinement on. -/
def st51 : State := buildState 2 2 true corpus51

set_option maxRecDepth 20000 in
/-- Claim C5, counterexample: `sC` is a non-empty inserted string, yet
`get(sC)` with the default threshold returns a non-empty result list that
does not contain `sC` at all: all 51 entries tie on cosine score, the
stable sort puts `sC`'s record last (position 51), and the Levenshtein
refinement keeps only the top 50 cosine candidates. -/
theorem c5_counterexample :
    (sC ∈ corpus51 ∧ sC ≠ []) ∧
    (getInner st51 sC (mkRat 33 100)).elim false
      (fun r => 0 < r.length && r.all (fun p => p.2 ≠ sC)) = true := by
  refine ⟨⟨by decide, by decide⟩, ?_⟩
  decide

end FuzzySearch
